import Mathlib

/-!
Sorting algorithms of `sorting/main.go`

A shallow embedding of the `Sortable` interface, of `IsSorted` and of the four
sorting procedures `SelectionSort`, `InsertionSort`, `BubbleSort` and
`ShellSort`, and of `measureTime`, followed by theorems about them.

Conventions of the embedding

* A sortable value is a list of elements together with two ghost counters
  that record how many times `Less` and `Exch` have been called.
* An index outside `[0, Len)` makes Go panic; here `Less` and `Exch` return
  `Err.indexOutOfRange` in that case.
* Go `int` indices are natural numbers here.  Every subtraction of the source
  is guarded (`j > 0` before `j-1`, `j >= h` before `j-h`, `i >= 1` before
  `i-1`), except `n-1` in `SelectionSort` for `n = 0`, where `0 < -1` and the
  truncated `0 < 0` are both false.  No arithmetic of the source can exceed the
  length of the slice, so machine overflow does not occur.
* A loop whose control variable counts down to zero is a structural recursion
  on that variable.  Every other loop checks its condition explicitly and
  carries a fuel argument; running out of fuel is the error `Err.outOfFuel`.
-/

namespace Sorting

/-- Ways in which a run can stop without a result. -/
inductive Err where
  | indexOutOfRange : Err
  | outOfFuel : Err
  | panic : String → Err
  deriving DecidableEq

/-- The receiver of the `Sortable` interface: the slice `elems`, and two ghost
counters for the number of calls of `Less` and of `Exch`. -/
structure Sortable (α : Type) where
  elems : List α
  lessCalls : Nat
  exchCalls : Nat

variable {α : Type}

/-- Source: `Len() int  { return len(w) }`. -/
def Len (s : Sortable α) : Nat := s.elems.length

/-- Source: `Less(i, j int) bool  { return w[i] < w[j] }`, for the order `lt` of the
element type. -/
def Less (lt : α → α → Bool) (s : Sortable α) (i j : Nat) :
    Except Err (Bool × Sortable α) :=
  match s.elems[i]?, s.elems[j]? with
  | some x, some y => .ok (lt x y, ⟨s.elems, s.lessCalls + 1, s.exchCalls⟩)
  | _, _ => .error .indexOutOfRange

/-- Source: `Exch(i, j int)  { w[i], w[j] = w[j], w[i] }`: both operands are read, then
`w[i]` is assigned and then `w[j]`. -/
def Exch (s : Sortable α) (i j : Nat) : Except Err (Sortable α) :=
  match s.elems[i]?, s.elems[j]? with
  | some x, some y => .ok ⟨(s.elems.set i y).set j x, s.lessCalls, s.exchCalls + 1⟩
  | _, _ => .error .indexOutOfRange

/-- Source: `Get(i int) interface{}  { return w[i] }`. -/
def Get (s : Sortable α) (i : Nat) : Except Err α :=
  match s.elems[i]? with
  | some x => .ok x
  | none => .error .indexOutOfRange

/-- The loop of `IsSorted`:
`for ; i < a.Len(); i++ { if a.Less(i, i-1) { return false } }; return true`. -/
def isSortedLoop (lt : α → α → Bool) : Nat → Nat → Sortable α → Except Err (Bool × Sortable α)
  | 0, _, _ => .error .outOfFuel
  | fuel + 1, i, s =>
    if i < Len s then do
      let (b, s1) ← Less lt s i (i - 1)
      if b then .ok (false, s1) else isSortedLoop lt fuel (i + 1) s1
    else .ok (true, s)

/-- Source: `func IsSorted(a Sortable) bool`, run with fuel for one more
iteration than the loop can make. -/
def IsSorted (lt : α → α → Bool) (s : Sortable α) : Except Err (Bool × Sortable α) :=
  isSortedLoop lt (Len s + 1) 1 s

/-- The inner loop of `SelectionSort`:
`for ; j < n; j++ { if a.Less(j, min) { min = j } }`. -/
def selectionInner (lt : α → α → Bool) (n : Nat) :
    Nat → Nat → Nat → Sortable α → Except Err (Nat × Sortable α)
  | 0, _, _, _ => .error .outOfFuel
  | fuel + 1, j, min, s =>
    if j < n then do
      let (b, s1) ← Less lt s j min
      selectionInner lt n fuel (j + 1) (if b then j else min) s1
    else .ok (min, s)

/-- The outer loop of `SelectionSort`:
`for ; i < n-1; i++ { min = i; (inner loop from j = i+1); a.Exch(i, min) }`. -/
def selectionOuter (lt : α → α → Bool) (n : Nat) :
    Nat → Nat → Sortable α → Except Err (Sortable α)
  | 0, _, _ => .error .outOfFuel
  | fuel + 1, i, s =>
    if i < n - 1 then do
      let (min, s1) ← selectionInner lt n (n + 1) (i + 1) i s
      let s2 ← Exch s1 i min
      selectionOuter lt n fuel (i + 1) s2
    else .ok s

/-- Source: `func SelectionSort(a Sortable)`. -/
def SelectionSort (lt : α → α → Bool) (s : Sortable α) : Except Err (Sortable α) :=
  selectionOuter lt (Len s) (Len s + 1) 0 s

/-- The inner loop of `InsertionSort`:
`for ; j > 0 && a.Less(j, j-1); j-- { a.Exch(j, j-1) }`. -/
def insertionInner (lt : α → α → Bool) : Nat → Sortable α → Except Err (Sortable α)
  | 0, s => .ok s
  | j + 1, s => do
    let (b, s1) ← Less lt s (j + 1) j
    if b then do
      let s2 ← Exch s1 (j + 1) j
      insertionInner lt j s2
    else .ok s1

/-- The outer loop of `InsertionSort`:
`for ; i < n; i++ { (inner loop from j = i) }`. -/
def insertionOuter (lt : α → α → Bool) (n : Nat) :
    Nat → Nat → Sortable α → Except Err (Sortable α)
  | 0, _, _ => .error .outOfFuel
  | fuel + 1, i, s =>
    if i < n then do
      let s1 ← insertionInner lt i s
      insertionOuter lt n fuel (i + 1) s1
    else .ok s

/-- Source: `func InsertionSort(a Sortable)`. -/
def InsertionSort (lt : α → α → Bool) (s : Sortable α) : Except Err (Sortable α) :=
  insertionOuter lt (Len s) (Len s + 1) 1 s

/-- The inner loop of `BubbleSort`:
`for ; j < i-1; j++ { if a.Less(j+1, j) { a.Exch(j+1, j); exch = true } }`.
The flag `exch` is threaded through and returned. -/
def bubbleInner (lt : α → α → Bool) (i : Nat) :
    Nat → Nat → Bool → Sortable α → Except Err (Bool × Sortable α)
  | 0, _, _, _ => .error .outOfFuel
  | fuel + 1, j, exch, s =>
    if j < i - 1 then do
      let (b, s1) ← Less lt s (j + 1) j
      if b then do
        let s2 ← Exch s1 (j + 1) j
        bubbleInner lt i fuel (j + 1) true s2
      else bubbleInner lt i fuel (j + 1) exch s1
    else .ok (exch, s)

/-- The outer loop of `BubbleSort`:
`for ; i > 1; i-- { exch = false; (inner loop from j = 0); if !exch { break } }`. -/
def bubbleOuter (lt : α → α → Bool) : Nat → Sortable α → Except Err (Sortable α)
  | 0, s => .ok s
  | i + 1, s =>
    if i + 1 > 1 then do
      let (exch, s1) ← bubbleInner lt (i + 1) (i + 1) 0 false s
      if !exch then .ok s1 else bubbleOuter lt i s1
    else .ok s

/-- Source: `func BubbleSort(a Sortable)`. -/
def BubbleSort (lt : α → α → Bool) (s : Sortable α) : Except Err (Sortable α) :=
  bubbleOuter lt (Len s) s

/-- The first loop of `ShellSort`: `for h < N/3 { h = 3*h + 1 }`, returning
the value of `h` on exit. -/
def shellGrow (N : Nat) : Nat → Nat → Except Err Nat
  | 0, _ => .error .outOfFuel
  | fuel + 1, h => if h < N / 3 then shellGrow N fuel (3 * h + 1) else .ok h

/-- The innermost loop of `ShellSort`:
`for ; j >= h && a.Less(j, j-h); j -= h { a.Exch(j, j-h) }`. -/
def shellInner (lt : α → α → Bool) (h : Nat) :
    Nat → Nat → Sortable α → Except Err (Sortable α)
  | 0, _, _ => .error .outOfFuel
  | fuel + 1, j, s =>
    if j ≥ h then do
      let (b, s1) ← Less lt s j (j - h)
      if b then do
        let s2 ← Exch s1 j (j - h)
        shellInner lt h fuel (j - h) s2
      else .ok s1
    else .ok s

/-- The middle loop of `ShellSort`:
`for ; i < N; i++ { (innermost loop from j = i) }`. -/
def shellPass (lt : α → α → Bool) (N h : Nat) :
    Nat → Nat → Sortable α → Except Err (Sortable α)
  | 0, _, _ => .error .outOfFuel
  | fuel + 1, i, s =>
    if i < N then do
      let s1 ← shellInner lt h (i + 1) i s
      shellPass lt N h fuel (i + 1) s1
    else .ok s

/-- The second loop of `ShellSort`:
`for h >= 1 { (middle loop from i = h); h = h / 3 }`. -/
def shellGaps (lt : α → α → Bool) (N : Nat) :
    Nat → Nat → Sortable α → Except Err (Sortable α)
  | 0, _, _ => .error .outOfFuel
  | fuel + 1, h, s =>
    if h ≥ 1 then do
      let s1 ← shellPass lt N h (N + 1) h s
      shellGaps lt N fuel (h / 3) s1
    else .ok s

/-- Source: `func ShellSort(a Sortable)`. -/
def ShellSort (lt : α → α → Bool) (s : Sortable α) : Except Err (Sortable α) := do
  let h ← shellGrow (Len s) (Len s + 1) 1
  shellGaps lt (Len s) (h + 1) h s

/-- The order of `Floats`, `f[i] < f[j]`, on exact rationals (no NaN). -/
def floatLt (x y : ℚ) : Bool := decide (x < y)

/-- The order of `Words`, `w[i] < w[j]` on strings. -/
def wordLt (x y : String) : Bool := decide (x < y)

/-- Source: `type Floats []float64`; the counters start at zero. -/
def Floats (l : List ℚ) : Sortable ℚ := ⟨l, 0, 0⟩

/-- Source: `type Words []string`; the counters start at zero. -/
def Words (l : List String) : Sortable String := ⟨l, 0, 0⟩

/-- Source: `func measureTime(alg string, a Floats) float64`.  The clock is
not modelled.  The result is the outcome of the call, `.ok ()` when it returns
and the error when it panics, together with the sequence as the call leaves
it; the two panics of the source are the errors `Err.panic` with the message
of the source.  A sorting procedure of this model that fails returns no
sequence; that case is listed with the sequence `a` of the call. -/
def measureTime (alg : String) (a : Sortable ℚ) : Except Err Unit × Sortable ℚ :=
  let r : Option (Except Err (Sortable ℚ)) :=
    if alg = "SelectionSort" then some (SelectionSort floatLt a)
    else if alg = "InsertionSort" then some (InsertionSort floatLt a)
    else if alg = "BubbleSort" then some (BubbleSort floatLt a)
    else if alg = "ShellSort" then some (ShellSort floatLt a)
    else none
  match r with
  | none => (.error (.panic (alg ++ " Not implemented")), a)
  | some (.error e) => (.error e, a)
  | some (.ok a1) =>
    match IsSorted floatLt a1 with
    | .error e => (.error e, a1)
    | .ok (b, a2) =>
      if !b then (.error (.panic (alg ++ " is not sorted")), a2) else (.ok (), a2)

/-! ## Auxiliary notions for the statements -/

/-- The value of `w[i] < w[j]` on the list `l`; `false` when an index is out
of range. -/
def lessAt (lt : α → α → Bool) (l : List α) (i j : Nat) : Bool :=
  match l[i]?, l[j]? with
  | some x, some y => lt x y
  | _, _ => false

/-- The list `l` after `w[i], w[j] = w[j], w[i]`; `l` itself when an index is
out of range. -/
def swap (l : List α) (i j : Nat) : List α :=
  match l[i]?, l[j]? with
  | some x, some y => (l.set i y).set j x
  | _, _ => l

/-- The transposition of the indices `i` and `j`, applied to `k`. -/
def swapIdx (i j k : Nat) : Nat := if k = j then i else if k = i then j else k

/-- The less relation of the sequence `l` is a strict weak ordering: on the
elements of `l` it is irreflexive and transitive, and incomparability is
transitive. -/
structure StrictWeakOrderOn (lt : α → α → Bool) (l : List α) : Prop where
  irrefl : ∀ x, x ∈ l → lt x x = false
  trans : ∀ x y z, x ∈ l → y ∈ l → z ∈ l → lt x y = true → lt y z = true → lt x z = true
  incomp_trans : ∀ x y z, x ∈ l → y ∈ l → z ∈ l → lt x y = false → lt y x = false →
    lt y z = false → lt z y = false → lt x z = false ∧ lt z x = false

/-- No position `i` with `1 ≤ i < len` has `less(i, i-1)`. -/
def SortedAdj (lt : α → α → Bool) (l : List α) : Prop :=
  ∀ i x y, 1 ≤ i → l[i]? = some x → l[i - 1]? = some y → lt x y = false

/-- The terms of the sequence `1, 4, 13, 40, ...` (`h ← 3h+1` from `h = 1`). -/
inductive IsGap : Nat → Prop where
  | one : IsGap 1
  | step (h : Nat) : IsGap h → IsGap (3 * h + 1)

/-- The order `<` on natural numbers, as a Boolean test. -/
def natLt (x y : Nat) : Bool := decide (x < y)

/-- The values of `h` with which the body of the second loop of `ShellSort`
runs, in order: the control flow of `shellGaps` (`for h >= 1 { ...; h = h / 3 }`)
without the passes. -/
def shellGapList : Nat → Nat → List Nat
  | 0, _ => []
  | fuel + 1, h => if h ≥ 1 then h :: shellGapList fuel (h / 3) else []

/-- The number of inversions of `l`: the number of index pairs `i < j` for
which `less(j, i)` holds. -/
def inversions (lt : α → α → Bool) (l : List α) : Nat :=
  ((List.range l.length).map
    (fun j => ((List.range j).filter (fun i => lessAt lt l j i)).length)).sum

/-- The elements `a` and `x` compare equal: neither is less than the other. -/
def incomp (lt : α → α → Bool) (a x : α) : Bool := !lt a x && !lt x a

/-- The order of pairs that compares the first components (the keys) with `<`
and ignores the second. -/
def keyLt (x y : ℚ × String) : Bool := decide (x.1 < y.1)

variable {β γ : Type}

/-! ## Basic facts about the result monad, `swap` and `lessAt` -/

theorem bind_ok (x : β) (f : β → Except Err γ) : (Except.ok x >>= f) = f x := rfl

theorem bind_error (e : Err) (f : β → Except Err γ) :
    (Except.error e >>= f) = Except.error e := rfl

theorem length_swap (l : List α) (i j : Nat) : (swap l i j).length = l.length := by
  unfold swap; split <;> simp

theorem getElem?_swap (l : List α) {i j : Nat} (hi : i < l.length) (hj : j < l.length)
    (k : Nat) : (swap l i j)[k]? = l[swapIdx i j k]? := by
  unfold swap swapIdx
  rw [List.getElem?_eq_getElem hi, List.getElem?_eq_getElem hj]
  simp only [List.getElem?_set, List.length_set]
  by_cases h1 : k = j
  · subst h1; simp [hj, List.getElem?_eq_getElem hi]
  · have h1' : ¬ j = k := fun h => h1 h.symm
    by_cases h2 : k = i
    · subst h2; simp [h1, h1', hi, List.getElem?_eq_getElem hj]
    · have h2' : ¬ i = k := fun h => h2 h.symm
      simp [h1, h1', h2, h2']

theorem set_of_getElem? : ∀ (l : List α) (i : Nat) (x : α), l[i]? = some x → l.set i x = l
  | [], _, _, h => by simp at h
  | z :: t, 0, x, h => by simp at h; simp [h]
  | z :: t, i + 1, x, h => by simp at h; simp [set_of_getElem? t i x h]

theorem swap_self (l : List α) (i : Nat) : swap l i i = l := by
  unfold swap
  split
  · rename_i x y hx hy
    rw [hx] at hy
    cases hy
    rw [set_of_getElem? l i x hx, set_of_getElem? l i x hx]
  · rfl

theorem cons_set_perm (x y : α) : ∀ (t : List α) (k : Nat), t[k]? = some y →
    (y :: t.set k x).Perm (x :: t)
  | [], k, h => by simp at h
  | z :: t, 0, h => by
    simp at h; subst h
    simpa using List.Perm.swap x z t
  | z :: t, k + 1, h => by
    simp at h
    have ih := cons_set_perm x y t k h
    simp only [List.set_cons_succ]
    exact ((List.Perm.swap z y _).trans (ih.cons z)).trans (List.Perm.swap x z t)

theorem swap_perm_aux : ∀ (l : List α) (i d : Nat) (x y : α), l[i]? = some x →
    l[i + d + 1]? = some y → ((l.set i y).set (i + d + 1) x).Perm l
  | [], i, d, x, y, h, _ => by simp at h
  | z :: t, 0, d, x, y, h, h2 => by
    simp at h; subst h
    simp at h2
    simp only [List.set_cons_zero, zero_add, List.set_cons_succ]
    exact cons_set_perm z y t d h2
  | z :: t, i + 1, d, x, y, h, h2 => by
    simp at h
    have e : i + 1 + d + 1 = (i + d + 1) + 1 := by omega
    rw [e] at h2 ⊢
    simp at h2
    simp only [List.set_cons_succ]
    exact (swap_perm_aux t i d x y h h2).cons z

theorem swap_perm (l : List α) (i j : Nat) : (swap l i j).Perm l := by
  unfold swap
  split
  · rename_i x y hx hy
    rcases Nat.lt_trichotomy i j with h | h | h
    · obtain ⟨d, rfl⟩ : ∃ d, j = i + d + 1 := ⟨j - i - 1, by omega⟩
      exact swap_perm_aux l i d x y hx hy
    · subst h
      rw [hx] at hy; cases hy
      rw [set_of_getElem? l i x hx, set_of_getElem? l i x hx]
    · obtain ⟨d, rfl⟩ : ∃ d, i = j + d + 1 := ⟨i - j - 1, by omega⟩
      rw [List.set_comm _ _ _ (by omega)]
      exact swap_perm_aux l j d y x hy hx
  · exact List.Perm.refl l

theorem swapIdx_left (i j : Nat) : swapIdx i j i = j := by
  unfold swapIdx; split_ifs <;> simp_all

theorem swapIdx_right (i j : Nat) : swapIdx i j j = i := by
  unfold swapIdx; simp

theorem swapIdx_of_ne {i j k : Nat} (h1 : k ≠ i) (h2 : k ≠ j) : swapIdx i j k = k := by
  unfold swapIdx; simp [h1, h2]

theorem lessAt_swap (lt : α → α → Bool) (l : List α) {i j : Nat} (hi : i < l.length)
    (hj : j < l.length) (p q : Nat) :
    lessAt lt (swap l i j) p q = lessAt lt l (swapIdx i j p) (swapIdx i j q) := by
  unfold lessAt
  rw [getElem?_swap l hi hj, getElem?_swap l hi hj]

theorem lessAt_eq (lt : α → α → Bool) (l : List α) {i j : Nat} {x y : α}
    (hx : l[i]? = some x) (hy : l[j]? = some y) : lessAt lt l i j = lt x y := by
  unfold lessAt; rw [hx, hy]

theorem StrictWeakOrderOn.perm {lt : α → α → Bool} {l l' : List α}
    (h : StrictWeakOrderOn lt l) (p : l'.Perm l) : StrictWeakOrderOn lt l' :=
  ⟨fun x hx => h.irrefl x (p.subset hx),
   fun x y z hx hy hz => h.trans x y z (p.subset hx) (p.subset hy) (p.subset hz),
   fun x y z hx hy hz => h.incomp_trans x y z (p.subset hx) (p.subset hy) (p.subset hz)⟩

theorem StrictWeakOrderOn.asymm {lt : α → α → Bool} {l : List α} (h : StrictWeakOrderOn lt l)
    (x y : α) (hx : x ∈ l) (hy : y ∈ l) (hxy : lt x y = true) : lt y x = false := by
  cases hyx : lt y x with
  | false => rfl
  | true =>
    have := h.trans x y x hx hy hx hxy hyx
    rw [h.irrefl x hx] at this
    exact this.symm

theorem StrictWeakOrderOn.negtrans {lt : α → α → Bool} {l : List α}
    (h : StrictWeakOrderOn lt l) (x y z : α) (hx : x ∈ l) (hy : y ∈ l) (hz : z ∈ l)
    (hxy : lt x y = false) (hyz : lt y z = false) : lt x z = false := by
  cases hxz : lt x z with
  | false => rfl
  | true =>
    exfalso
    cases hyx : lt y x with
    | true =>
      have := h.trans y x z hy hx hz hyx hxz
      rw [hyz] at this; exact Bool.noConfusion this
    | false =>
      cases hzy : lt z y with
      | true =>
        have := h.trans x z y hx hz hy hxz hzy
        rw [hxy] at this; exact Bool.noConfusion this
      | false =>
        have := (h.incomp_trans x y z hx hy hz hxy hyx hyz hzy).1
        rw [hxz] at this; exact Bool.noConfusion this

theorem lessAt_irrefl {lt : α → α → Bool} {l : List α} (h : StrictWeakOrderOn lt l) (i : Nat) :
    lessAt lt l i i = false := by
  unfold lessAt
  cases hx : l[i]? with
  | none => rfl
  | some x => exact h.irrefl x (List.getElem?_mem hx)

theorem lessAt_asymm {lt : α → α → Bool} {l : List α} (h : StrictWeakOrderOn lt l) (i j : Nat)
    (hij : lessAt lt l i j = true) : lessAt lt l j i = false := by
  unfold lessAt at hij ⊢
  cases hx : l[i]? with
  | none => simp
  | some x =>
    cases hy : l[j]? with
    | none => rfl
    | some y =>
      rw [hx, hy] at hij
      exact h.asymm x y (List.getElem?_mem hx) (List.getElem?_mem hy) hij

theorem lessAt_trans {lt : α → α → Bool} {l : List α} (h : StrictWeakOrderOn lt l)
    (i j k : Nat) (hij : lessAt lt l i j = true) (hjk : lessAt lt l j k = true) :
    lessAt lt l i k = true := by
  unfold lessAt at hij hjk ⊢
  cases hx : l[i]? with
  | none => rw [hx] at hij; simp at hij
  | some x =>
    cases hy : l[j]? with
    | none => rw [hx, hy] at hij; simp at hij
    | some y =>
      cases hz : l[k]? with
      | none => rw [hy, hz] at hjk; simp at hjk
      | some z =>
        rw [hx, hy] at hij
        rw [hy, hz] at hjk
        exact h.trans x y z (List.getElem?_mem hx) (List.getElem?_mem hy)
          (List.getElem?_mem hz) hij hjk

theorem lessAt_negtrans {lt : α → α → Bool} {l : List α} (h : StrictWeakOrderOn lt l)
    (i j k : Nat) (hj : j < l.length) (hij : lessAt lt l i j = false)
    (hjk : lessAt lt l j k = false) : lessAt lt l i k = false := by
  unfold lessAt at hij hjk ⊢
  have hy := List.getElem?_eq_getElem hj
  rw [hy] at hij hjk
  cases hx : l[i]? with
  | none => simp
  | some x =>
    cases hz : l[k]? with
    | none => rfl
    | some z =>
      rw [hx] at hij
      rw [hz] at hjk
      exact h.negtrans x _ z (List.getElem?_mem hx) (List.getElem?_mem hy)
        (List.getElem?_mem hz) hij hjk

/-- The strict order of a linear order is a strict weak ordering on every list. -/
theorem swo_of_linearOrder {β : Type} [LinearOrder β] (l : List β) :
    StrictWeakOrderOn (fun x y : β => decide (x < y)) l := by
  refine ⟨fun x _ => ?_, fun x y z _ _ _ h1 h2 => ?_, fun x y z _ _ _ h1 h2 h3 h4 => ?_⟩
  · simp
  · simp only [decide_eq_true_eq] at *; exact lt_trans h1 h2
  · simp only [decide_eq_false_iff_not, not_lt] at *
    exact ⟨le_trans h3 h1, le_trans h2 h4⟩

theorem natLt_swo (l : List Nat) : StrictWeakOrderOn natLt l := swo_of_linearOrder l

theorem floatLt_swo (l : List ℚ) : StrictWeakOrderOn floatLt l := swo_of_linearOrder l

theorem wordLt_swo (l : List String) : StrictWeakOrderOn wordLt l := by
  unfold wordLt
  convert swo_of_linearOrder l

theorem Less_eq (lt : α → α → Bool) (s : Sortable α) {i j : Nat} (hi : i < Len s)
    (hj : j < Len s) :
    Less lt s i j = .ok (lessAt lt s.elems i j, ⟨s.elems, s.lessCalls + 1, s.exchCalls⟩) := by
  unfold Len at hi hj
  unfold Less lessAt
  rw [List.getElem?_eq_getElem hi, List.getElem?_eq_getElem hj]

theorem Exch_eq (s : Sortable α) {i j : Nat} (hi : i < Len s) (hj : j < Len s) :
    Exch s i j = .ok ⟨swap s.elems i j, s.lessCalls, s.exchCalls + 1⟩ := by
  unfold Len at hi hj
  unfold Exch swap
  rw [List.getElem?_eq_getElem hi, List.getElem?_eq_getElem hj]

/-! ## Sortedness without adjacent inversion -/

theorem perm_Len {s s' : Sortable α} (h : s'.elems.Perm s.elems) : Len s' = Len s :=
  h.length_eq

theorem sortedAdj_iff (lt : α → α → Bool) (l : List α) :
    SortedAdj lt l ↔ ∀ k, 1 ≤ k → k < l.length → lessAt lt l k (k - 1) = false := by
  constructor
  · intro h k hk1 hk2
    have h1 : l[k]? = some l[k] := List.getElem?_eq_getElem hk2
    have h2 : l[k - 1]? = some l[k - 1] := List.getElem?_eq_getElem (by omega)
    rw [lessAt_eq lt l h1 h2]
    exact h k _ _ hk1 h1 h2
  · intro h i x y hi hx hy
    have hlen : i < l.length := (List.getElem?_eq_some.1 hx).1
    rw [← lessAt_eq lt l hx hy]
    exact h i hi hlen

theorem lessAt_of_adj {lt : α → α → Bool} (l : List α) (hlt : StrictWeakOrderOn lt l)
    (h : ∀ k, 1 ≤ k → k < l.length → lessAt lt l k (k - 1) = false) :
    ∀ (d p q : Nat), q = p + d + 1 → q < l.length → lessAt lt l q p = false
  | 0, p, q, hq, hl => by
    subst hq
    exact h (p + 0 + 1) (by omega) hl
  | d + 1, p, q, hq, hl => by
    subst hq
    have h1 := h (p + (d + 1) + 1) (by omega) hl
    have h2 := lessAt_of_adj l hlt h d p (p + d + 1) rfl (by omega)
    exact lessAt_negtrans hlt _ (p + d + 1) _ (by omega) h1 h2

theorem lessAt_of_sorted {lt : α → α → Bool} (l : List α) (hlt : StrictWeakOrderOn lt l)
    (h : ∀ k, 1 ≤ k → k < l.length → lessAt lt l k (k - 1) = false) (p q : Nat) (hpq : p < q)
    (hq : q < l.length) : lessAt lt l q p = false :=
  lessAt_of_adj l hlt h (q - p - 1) p q (by omega) hq

/-! ## IsSorted -/

theorem isSortedLoop_spec (lt : α → α → Bool) :
    ∀ (fuel i : Nat) (s : Sortable α), 1 ≤ i → Len s - i < fuel →
    ∃ b c, isSortedLoop lt fuel i s = .ok (b, ⟨s.elems, c, s.exchCalls⟩) ∧
      (b = true ↔ ∀ k, i ≤ k → k < Len s → lessAt lt s.elems k (k - 1) = false)
  | 0, i, s, _, hf => by omega
  | fuel + 1, i, s, hi, hf => by
    rw [isSortedLoop]
    by_cases hin : i < Len s
    · rw [if_pos hin, Less_eq lt s hin (by omega), bind_ok]
      cases hb : lessAt lt s.elems i (i - 1)
      · obtain ⟨b, c, e, h⟩ := isSortedLoop_spec lt fuel (i + 1)
          ⟨s.elems, s.lessCalls + 1, s.exchCalls⟩ (by omega)
          (by show Len s - (i + 1) < fuel; omega)
        refine ⟨b, c, e, h.trans ⟨fun h' k hk1 hk2 => ?_, fun h' k hk1 hk2 => h' k (by omega) hk2⟩⟩
        by_cases hk : k = i
        · subst hk; exact hb
        · exact h' k (by omega) hk2
      · refine ⟨false, s.lessCalls + 1, rfl, ?_⟩
        constructor
        · intro h; cases h
        · intro h
          have := h i (le_refl _) hin
          rw [hb] at this
          cases this
    · rw [if_neg hin]
      exact ⟨true, s.lessCalls, rfl, by simp; intro k hk1 hk2; omega⟩

theorem IsSorted_spec (lt : α → α → Bool) (s : Sortable α) :
    ∃ b c, IsSorted lt s = .ok (b, ⟨s.elems, c, s.exchCalls⟩) ∧
      (b = true ↔ SortedAdj lt s.elems) := by
  obtain ⟨b, c, e, h⟩ := isSortedLoop_spec lt (Len s + 1) 1 s (le_refl _) (by omega)
  exact ⟨b, c, e, h.trans (sortedAdj_iff lt s.elems).symm⟩

theorem IsSorted_true_iff (lt : α → α → Bool) (s : Sortable α) :
    Except.map Prod.fst (IsSorted lt s) = .ok true ↔ SortedAdj lt s.elems := by
  obtain ⟨b, c, e, h⟩ := IsSorted_spec lt s
  rw [e, ← h]
  simp [Except.map]

/-! ## InsertionSort -/

theorem insertionInner_total (lt : α → α → Bool) : ∀ (j : Nat) (s : Sortable α), j < Len s →
    ∃ s', insertionInner lt j s = .ok s' ∧ s'.elems.Perm s.elems ∧
      ((1 ≤ j → lessAt lt s.elems j (j - 1) = false) →
        s'.elems = s.elems ∧ s'.exchCalls = s.exchCalls)
  | 0, s, _ => ⟨s, rfl, List.Perm.refl _, fun _ => ⟨rfl, rfl⟩⟩
  | j + 1, s, h => by
    rw [insertionInner, Less_eq lt s h (by omega), bind_ok]
    cases hb : lessAt lt s.elems (j + 1) j
    · exact ⟨_, rfl, List.Perm.refl _, fun _ => ⟨rfl, rfl⟩⟩
    · simp only [if_true]
      rw [Exch_eq _ (by show j + 1 < Len s; exact h) (by show j < Len s; omega), bind_ok]
      obtain ⟨s', h1, h2, -⟩ := insertionInner_total lt j
        ⟨swap s.elems (j + 1) j, s.lessCalls + 1, s.exchCalls + 1⟩
        (by show j < (swap s.elems (j + 1) j).length; rw [length_swap]; unfold Len at h; omega)
      refine ⟨s', h1, h2.trans (swap_perm _ _ _), fun h' => ?_⟩
      have := h' (by omega)
      rw [Nat.add_sub_cancel, hb] at this
      cases this

theorem insertionOuter_total (lt : α → α → Bool) (n : Nat) :
    ∀ (fuel i : Nat) (s : Sortable α), Len s = n → n - i < fuel →
    ∃ s', insertionOuter lt n fuel i s = .ok s' ∧ s'.elems.Perm s.elems ∧
      ((∀ k, i ≤ k → k < n → 1 ≤ k → lessAt lt s.elems k (k - 1) = false) →
        s'.elems = s.elems ∧ s'.exchCalls = s.exchCalls)
  | 0, i, s, _, hf => by omega
  | fuel + 1, i, s, hn, hf => by
    rw [insertionOuter]
    by_cases hin : i < n
    · rw [if_pos hin]
      obtain ⟨s1, e1, p1, u1⟩ := insertionInner_total lt i s (by omega)
      rw [e1, bind_ok]
      obtain ⟨s', e2, p2, u2⟩ := insertionOuter_total lt n fuel (i + 1) s1
        ((perm_Len p1).trans hn) (by omega)
      refine ⟨s', e2, p2.trans p1, fun hs => ?_⟩
      obtain ⟨a1, b1⟩ := u1 (fun hi => hs i (le_refl _) hin hi)
      obtain ⟨a2, b2⟩ := u2 (fun k hk1 hk2 hk3 => by rw [a1]; exact hs k (by omega) hk2 hk3)
      exact ⟨a2.trans a1, b2.trans b1⟩
    · rw [if_neg hin]
      exact ⟨s, rfl, List.Perm.refl _, fun _ => ⟨rfl, rfl⟩⟩

theorem insertionInner_sorted {lt : α → α → Bool} (i : Nat) :
    ∀ (j : Nat) (s s' : Sortable α), StrictWeakOrderOn lt s.elems → i < Len s → j ≤ i →
    (∀ k, 1 ≤ k → k ≤ i → k ≠ j → lessAt lt s.elems k (k - 1) = false) →
    (1 ≤ j → j + 1 ≤ i → lessAt lt s.elems (j + 1) (j - 1) = false) →
    insertionInner lt j s = .ok s' →
    ∀ k, 1 ≤ k → k ≤ i → lessAt lt s'.elems k (k - 1) = false
  | 0, s, s', hlt, _, _, h1, _, he => by
    rw [insertionInner] at he
    cases he
    intro k hk1 hk2
    exact h1 k hk1 hk2 (by omega)
  | j + 1, s, s', hlt, hi, hj, h1, h2, he => by
    rw [insertionInner, Less_eq lt s (by omega) (by omega), bind_ok] at he
    cases hb : lessAt lt s.elems (j + 1) j
    · rw [hb] at he
      cases he
      intro k hk1 hk2
      by_cases hkj : k = j + 1
      · subst hkj; exact hb
      · exact h1 k hk1 hk2 hkj
    · rw [hb] at he
      have hl : Len (⟨s.elems, s.lessCalls + 1, s.exchCalls⟩ : Sortable α) = Len s := rfl
      simp only [if_true] at he
      rw [Exch_eq _ (by rw [hl]; omega) (by rw [hl]; omega), bind_ok] at he
      have hl2 : Len (⟨swap s.elems (j + 1) j, s.lessCalls + 1, s.exchCalls + 1⟩ : Sortable α)
          = Len s := length_swap _ _ _
      have hj1 : j + 1 < s.elems.length := by unfold Len at hi; omega
      have hj0 : j < s.elems.length := by omega
      refine insertionInner_sorted i j
        ⟨swap s.elems (j + 1) j, s.lessCalls + 1, s.exchCalls + 1⟩ s'
        (hlt.perm (swap_perm _ _ _)) (by rw [hl2]; exact hi) (by omega) ?_ ?_ he
      · intro k hk1 hk2 hkj
        show lessAt lt (swap s.elems (j + 1) j) k (k - 1) = false
        rw [lessAt_swap lt _ hj1 hj0]
        by_cases e1 : k = j + 1
        · subst e1
          rw [swapIdx_left, Nat.add_sub_cancel, swapIdx_right]
          exact lessAt_asymm hlt _ _ hb
        · by_cases e2 : k = j + 2
          · subst e2
            rw [swapIdx_of_ne (by omega) (by omega),
              show j + 2 - 1 = j + 1 from rfl, swapIdx_left]
            have := h2 (by omega) (by omega)
            simpa using this
          · rw [swapIdx_of_ne e1 hkj, swapIdx_of_ne (by omega) (by omega)]
            exact h1 k hk1 hk2 e1
      · intro hj1' _
        show lessAt lt (swap s.elems (j + 1) j) (j + 1) (j - 1) = false
        rw [lessAt_swap lt _ hj1 hj0, swapIdx_left, swapIdx_of_ne (by omega) (by omega)]
        exact h1 j hj1' (by omega) (by omega)

theorem insertionOuter_sorted {lt : α → α → Bool} (n : Nat) :
    ∀ (fuel i : Nat) (s s' : Sortable α), StrictWeakOrderOn lt s.elems → Len s = n → 1 ≤ i →
    (∀ k, 1 ≤ k → k < i → lessAt lt s.elems k (k - 1) = false) →
    insertionOuter lt n fuel i s = .ok s' →
    ∀ k, 1 ≤ k → k < n → lessAt lt s'.elems k (k - 1) = false
  | 0, i, s, s', hlt, _, _, _, he => by
    rw [insertionOuter] at he; cases he
  | fuel + 1, i, s, s', hlt, hn, hi, h, he => by
    rw [insertionOuter] at he
    by_cases hin : i < n
    · rw [if_pos hin] at he
      obtain ⟨s1, e1, p1, -⟩ := insertionInner_total lt i s (by omega)
      rw [e1, bind_ok] at he
      have hs1 := insertionInner_sorted i i s s1 hlt (by omega) (le_refl _)
        (fun k hk1 hk2 hk3 => h k hk1 (by omega)) (fun _ h' => by omega) e1
      exact insertionOuter_sorted n fuel (i + 1) s1 s' (hlt.perm p1)
        ((perm_Len p1).trans hn) (by omega)
        (fun k hk1 hk2 => hs1 k hk1 (by omega)) he
    · rw [if_neg hin] at he
      cases he
      exact fun k hk1 hk2 => h k hk1 (by omega)

/-! ## SelectionSort -/

theorem selectionInner_total (lt : α → α → Bool) (n : Nat) :
    ∀ (fuel j min : Nat) (s : Sortable α), Len s = n → min < n → n - j < fuel →
    ∃ m c, selectionInner lt n fuel j min s = .ok (m, ⟨s.elems, c, s.exchCalls⟩) ∧ m < n ∧
      ((∀ k, j ≤ k → k < n → lessAt lt s.elems k min = false) → m = min)
  | 0, j, min, s, _, _, hf => by omega
  | fuel + 1, j, min, s, hn, hm, hf => by
    rw [selectionInner]
    by_cases hjn : j < n
    · rw [if_pos hjn, Less_eq lt s (by omega) (by omega), bind_ok]
      obtain ⟨m, c, e, h1, h2⟩ := selectionInner_total lt n fuel (j + 1)
        (if lessAt lt s.elems j min = true then j else min)
        ⟨s.elems, s.lessCalls + 1, s.exchCalls⟩ hn (by split_ifs <;> omega) (by omega)
      refine ⟨m, c, e, h1, fun h => ?_⟩
      have hb := h j (le_refl _) hjn
      rw [hb] at h2
      exact h2 (fun k hk1 hk2 => h k (by omega) hk2)
    · rw [if_neg hjn]
      exact ⟨min, s.lessCalls, rfl, hm, fun _ => rfl⟩

theorem selectionInner_min {lt : α → α → Bool} (n i : Nat) :
    ∀ (fuel j min : Nat) (s : Sortable α) (m : Nat) (s' : Sortable α), StrictWeakOrderOn lt s.elems → Len s = n →
    i ≤ min → min < j →
    (∀ k, i ≤ k → k < j → lessAt lt s.elems k min = false) →
    selectionInner lt n fuel j min s = .ok (m, s') →
    i ≤ m ∧ ∀ k, i ≤ k → k < n → lessAt lt s.elems k m = false
  | 0, j, min, s, m, s', hlt, _, _, _, _, he => by
    rw [selectionInner] at he; cases he
  | fuel + 1, j, min, s, m, s', hlt, hn, him, hmj, h, he => by
    rw [selectionInner] at he
    by_cases hjn : j < n
    · rw [if_pos hjn, Less_eq lt s (by omega) (by omega), bind_ok] at he
      cases hb : lessAt lt s.elems j min
      · rw [hb] at he
        refine selectionInner_min n i fuel (j + 1) min
          ⟨s.elems, s.lessCalls + 1, s.exchCalls⟩ m s' hlt hn him (by omega) ?_ he
        intro k hk1 hk2
        by_cases hk : k = j
        · subst hk; exact hb
        · exact h k hk1 (by omega)
      · rw [hb] at he
        refine selectionInner_min n i fuel (j + 1) j
          ⟨s.elems, s.lessCalls + 1, s.exchCalls⟩ m s' hlt hn (by omega) (by omega) ?_ he
        intro k hk1 hk2
        show lessAt lt s.elems k j = false
        by_cases hk : k = j
        · subst hk; exact lessAt_irrefl hlt _
        · cases hkj : lessAt lt s.elems k j
          · rfl
          · have := lessAt_trans hlt _ _ _ hkj hb
            rw [h k hk1 (by omega)] at this
            cases this
    · rw [if_neg hjn] at he
      cases he
      exact ⟨him, fun k hk1 hk2 => h k hk1 (by omega)⟩

theorem selectionOuter_total (lt : α → α → Bool) (n : Nat) :
    ∀ (fuel i : Nat) (s : Sortable α), Len s = n → n - i < fuel →
    ∃ s', selectionOuter lt n fuel i s = .ok s' ∧ s'.elems.Perm s.elems ∧
      ((∀ p q, p < q → q < n → lessAt lt s.elems q p = false) → s'.elems = s.elems)
  | 0, i, s, _, hf => by omega
  | fuel + 1, i, s, hn, hf => by
    rw [selectionOuter]
    by_cases hin : i < n - 1
    · rw [if_pos hin]
      obtain ⟨m, c, e, hm, um⟩ := selectionInner_total lt n (n + 1) (i + 1) i s hn (by omega)
        (by omega)
      rw [e, bind_ok]
      simp only []
      rw [Exch_eq _ (by show Len s > i; omega) (by show Len s > m; omega), bind_ok]
      obtain ⟨s', e2, p2, u2⟩ := selectionOuter_total lt n fuel (i + 1)
        ⟨swap s.elems i m, c, s.exchCalls + 1⟩
        (by show (swap s.elems i m).length = n; rw [length_swap]; exact hn) (by omega)
      refine ⟨s', e2, p2.trans (swap_perm _ _ _), fun hs => ?_⟩
      have hmi : m = i := um (fun k hk1 hk2 => hs i k (by omega) hk2)
      subst hmi
      have hsw : swap s.elems m m = s.elems := swap_self _ _
      rw [u2 (by show ∀ p q, p < q → q < n → lessAt lt (swap s.elems m m) q p = false
                 rw [hsw]; exact hs)]
      exact hsw
    · rw [if_neg hin]
      exact ⟨s, rfl, List.Perm.refl _, fun _ => rfl⟩

theorem selectionOuter_sorted {lt : α → α → Bool} (n : Nat) :
    ∀ (fuel i : Nat) (s s' : Sortable α), StrictWeakOrderOn lt s.elems → Len s = n →
    (∀ p q, p < i → p < q → q < n → lessAt lt s.elems q p = false) →
    selectionOuter lt n fuel i s = .ok s' →
    ∀ k, 1 ≤ k → k < n → lessAt lt s'.elems k (k - 1) = false
  | 0, i, s, s', hlt, _, _, he => by
    rw [selectionOuter] at he; cases he
  | fuel + 1, i, s, s', hlt, hn, h, he => by
    rw [selectionOuter] at he
    by_cases hin : i < n - 1
    · rw [if_pos hin] at he
      obtain ⟨m, c, e, hm, -⟩ := selectionInner_total lt n (n + 1) (i + 1) i s hn (by omega)
        (by omega)
      have hmin := selectionInner_min n i (n + 1) (i + 1) i s m _ hlt hn (le_refl _) (by omega)
        (fun k hk1 hk2 => by
          have : k = i := by omega
          subst this; exact lessAt_irrefl hlt _) e
      rw [e, bind_ok] at he
      simp only [] at he
      rw [Exch_eq _ (by show Len s > i; omega) (by show Len s > m; omega), bind_ok] at he
      have hi' : i < s.elems.length := by unfold Len at hn; omega
      have hm' : m < s.elems.length := by unfold Len at hn; omega
      refine selectionOuter_sorted n fuel (i + 1) ⟨swap s.elems i m, c, s.exchCalls + 1⟩ s'
        (hlt.perm (swap_perm _ _ _))
        (by show (swap s.elems i m).length = n; rw [length_swap]; exact hn) ?_ he
      intro p q hp hpq hq
      show lessAt lt (swap s.elems i m) q p = false
      rw [lessAt_swap lt _ hi' hm']
      have hq' : p < swapIdx i m q ∨ (p = i ∧ i ≤ swapIdx i m q) := by
        unfold swapIdx; split_ifs <;> omega
      have hq'' : swapIdx i m q < n := by
        unfold swapIdx; split_ifs <;> omega
      by_cases hpi : p = i
      · subst hpi
        rw [swapIdx_left]
        exact hmin.2 _ (by omega) hq''
      · rw [swapIdx_of_ne hpi (by omega)]
        exact h p _ (by omega) (by omega) hq''
    · rw [if_neg hin] at he
      cases he
      exact fun k hk1 hk2 => h (k - 1) k (by omega) (by omega) hk2

/-! ## BubbleSort -/

theorem bubbleInner_total (lt : α → α → Bool) (i : Nat) :
    ∀ (fuel j : Nat) (exch : Bool) (s : Sortable α), i ≤ Len s → i - 1 - j < fuel →
    ∃ b s', bubbleInner lt i fuel j exch s = .ok (b, s') ∧ s'.elems.Perm s.elems ∧
      ((∀ k, j ≤ k → k < i - 1 → lessAt lt s.elems (k + 1) k = false) →
        b = exch ∧ s'.elems = s.elems ∧ s'.exchCalls = s.exchCalls)
  | 0, j, exch, s, _, hf => by omega
  | fuel + 1, j, exch, s, hi, hf => by
    rw [bubbleInner]
    by_cases hji : j < i - 1
    · rw [if_pos hji, Less_eq lt s (by omega) (by omega), bind_ok]
      cases hb : lessAt lt s.elems (j + 1) j
      · obtain ⟨b, s', e, p, h⟩ := bubbleInner_total lt i fuel (j + 1) exch
          ⟨s.elems, s.lessCalls + 1, s.exchCalls⟩ hi (by omega)
        exact ⟨b, s', e, p, fun h' => h (fun k hk1 hk2 => h' k (by omega) hk2)⟩
      · simp only [if_true]
        rw [Exch_eq _ (by show j + 1 < Len s; omega) (by show j < Len s; omega), bind_ok]
        obtain ⟨b, s', e, p, -⟩ := bubbleInner_total lt i fuel (j + 1) true
          ⟨swap s.elems (j + 1) j, s.lessCalls + 1, s.exchCalls + 1⟩
          (by show i ≤ (swap s.elems (j + 1) j).length; rw [length_swap]; exact hi) (by omega)
        refine ⟨b, s', e, p.trans (swap_perm _ _ _), fun h' => ?_⟩
        have := h' j (le_refl _) hji
        rw [hb] at this
        cases this
    · rw [if_neg hji]
      exact ⟨exch, s, rfl, List.Perm.refl _, fun _ => ⟨rfl, rfl, rfl⟩⟩

theorem bubbleInner_inv {lt : α → α → Bool} (n i : Nat) :
    ∀ (fuel j : Nat) (exch : Bool) (s : Sortable α) (b : Bool) (s' : Sortable α), StrictWeakOrderOn lt s.elems →
    Len s = n → i ≤ n → j + 1 ≤ i →
    (∀ k, k ≤ j → lessAt lt s.elems j k = false) →
    (exch = false → ∀ k, 1 ≤ k → k ≤ j → lessAt lt s.elems k (k - 1) = false) →
    (∀ p q, p < q → i ≤ q → q < n → lessAt lt s.elems q p = false) →
    bubbleInner lt i fuel j exch s = .ok (b, s') →
    (∀ k, k ≤ i - 1 → lessAt lt s'.elems (i - 1) k = false) ∧
    (b = false → ∀ k, 1 ≤ k → k ≤ i - 1 → lessAt lt s'.elems k (k - 1) = false) ∧
    (∀ p q, p < q → i ≤ q → q < n → lessAt lt s'.elems q p = false)
  | 0, j, exch, s, b, s', hlt, _, _, _, _, _, _, he => by
    rw [bubbleInner] at he; cases he
  | fuel + 1, j, exch, s, b, s', hlt, hn, hi, hj, hM, hE, hS, he => by
    rw [bubbleInner] at he
    by_cases hji : j < i - 1
    · rw [if_pos hji, Less_eq lt s (by omega) (by omega), bind_ok] at he
      have hj1 : j + 1 < s.elems.length := by unfold Len at hn; omega
      have hj0 : j < s.elems.length := by omega
      cases hb : lessAt lt s.elems (j + 1) j
      · rw [hb] at he
        refine bubbleInner_inv n i fuel (j + 1) exch
          ⟨s.elems, s.lessCalls + 1, s.exchCalls⟩ b s' hlt hn hi (by omega) ?_ ?_ hS he
        · intro k hk
          show lessAt lt s.elems (j + 1) k = false
          by_cases hk1 : k = j + 1
          · subst hk1; exact lessAt_irrefl hlt _
          · exact lessAt_negtrans hlt _ j _ hj0 hb (hM k (by omega))
        · intro hex k hk1 hk2
          show lessAt lt s.elems k (k - 1) = false
          by_cases hk : k = j + 1
          · subst hk; exact hb
          · exact hE hex k hk1 (by omega)
      · rw [hb] at he
        simp only [if_true] at he
        rw [Exch_eq _ (by show j + 1 < Len s; omega) (by show j < Len s; omega), bind_ok] at he
        refine bubbleInner_inv n i fuel (j + 1) true
          ⟨swap s.elems (j + 1) j, s.lessCalls + 1, s.exchCalls + 1⟩ b s'
          (hlt.perm (swap_perm _ _ _))
          (by show (swap s.elems (j + 1) j).length = n; rw [length_swap]; exact hn)
          hi (by omega) ?_ ?_ ?_ he
        · intro k hk
          show lessAt lt (swap s.elems (j + 1) j) (j + 1) k = false
          rw [lessAt_swap lt _ hj1 hj0, swapIdx_left]
          by_cases hk1 : k = j + 1
          · subst hk1; rw [swapIdx_left]; exact lessAt_irrefl hlt _
          · by_cases hk2 : k = j
            · subst hk2; rw [swapIdx_right]; exact lessAt_asymm hlt _ _ hb
            · rw [swapIdx_of_ne hk1 hk2]; exact hM k (by omega)
        · intro hex; cases hex
        · intro p q hpq hiq hqn
          show lessAt lt (swap s.elems (j + 1) j) q p = false
          rw [lessAt_swap lt _ hj1 hj0, swapIdx_of_ne (by omega) (by omega)]
          have hp : swapIdx (j + 1) j p < q := by
            unfold swapIdx; split_ifs <;> omega
          exact hS _ q hp hiq hqn
    · rw [if_neg hji] at he
      cases he
      have hji' : j = i - 1 := by omega
      subst hji'
      exact ⟨hM, hE, hS⟩

theorem bubbleOuter_total (lt : α → α → Bool) :
    ∀ (i : Nat) (s : Sortable α), i ≤ Len s →
    ∃ s', bubbleOuter lt i s = .ok s' ∧ s'.elems.Perm s.elems
  | 0, s, _ => ⟨s, rfl, List.Perm.refl _⟩
  | i + 1, s, hi => by
    rw [bubbleOuter]
    by_cases h1 : i + 1 > 1
    · rw [if_pos h1]
      obtain ⟨b, s1, e, p, -⟩ := bubbleInner_total lt (i + 1) (i + 1) 0 false s hi (by omega)
      rw [e, bind_ok]
      cases b
      · exact ⟨s1, rfl, p⟩
      · obtain ⟨s', e2, p2⟩ := bubbleOuter_total lt i s1 (by rw [perm_Len p]; omega)
        exact ⟨s', e2, p2.trans p⟩
    · rw [if_neg h1]
      exact ⟨s, rfl, List.Perm.refl _⟩

theorem bubbleOuter_sorted {lt : α → α → Bool} (n : Nat) :
    ∀ (i : Nat) (s s' : Sortable α), StrictWeakOrderOn lt s.elems → Len s = n → i ≤ n →
    (∀ p q, p < q → i ≤ q → q < n → lessAt lt s.elems q p = false) →
    bubbleOuter lt i s = .ok s' →
    ∀ k, 1 ≤ k → k < n → lessAt lt s'.elems k (k - 1) = false
  | 0, s, s', hlt, _, _, hS, he => by
    rw [bubbleOuter] at he; cases he
    exact fun k hk1 hk2 => hS (k - 1) k (by omega) (by omega) hk2
  | i + 1, s, s', hlt, hn, hi, hS, he => by
    rw [bubbleOuter] at he
    by_cases h1 : i + 1 > 1
    · rw [if_pos h1] at he
      obtain ⟨b, s1, e, p, -⟩ := bubbleInner_total lt (i + 1) (i + 1) 0 false s (by omega)
        (by omega)
      rw [e, bind_ok] at he
      obtain ⟨hM, hE, hS'⟩ := bubbleInner_inv n (i + 1) (i + 1) 0 false s b s1 hlt hn hi
        (by omega)
        (fun k hk => by
          have : k = 0 := by omega
          subst this; exact lessAt_irrefl hlt _)
        (fun _ k hk1 hk2 => by omega) hS e
      cases b
      · cases he
        intro k hk1 hk2
        by_cases hk : k ≤ i
        · exact hE rfl k hk1 (by omega)
        · exact hS' (k - 1) k (by omega) (by omega) hk2
      · refine bubbleOuter_sorted n i s1 s' (hlt.perm p) ((perm_Len p).trans hn) (by omega) ?_ he
        intro p q hpq hiq hqn
        by_cases hq : q = i
        · subst hq
          have := hM p (by omega)
          simpa using this
        · exact hS' p q hpq (by omega) hqn
    · rw [if_neg h1] at he
      cases he
      exact fun k hk1 hk2 => hS (k - 1) k (by omega) (by omega) hk2

/-! ## ShellSort -/

theorem IsGap.pos {h : Nat} (hg : IsGap h) : 1 ≤ h := by
  cases hg <;> omega

theorem IsGap.next_le : ∀ {g : Nat}, IsGap g → ∀ {h : Nat}, IsGap h → h < g → 3 * h + 1 ≤ g := by
  intro g hg
  induction hg with
  | one => intro h hh hlt; have := hh.pos; omega
  | step g' hg' ih =>
    intro h hh hlt
    cases hh with
    | one => have := hg'.pos; omega
    | step h' hh' =>
      have := ih hh' (by omega)
      omega

theorem shellGrow_spec (N : Nat) :
    ∀ (fuel h : Nat), IsGap h → N / 3 - h < fuel → (∀ g, IsGap g → N / 3 ≤ g → h ≤ g) →
    ∃ h', shellGrow N fuel h = .ok h' ∧ IsGap h' ∧ N / 3 ≤ h' ∧
      ∀ g, IsGap g → N / 3 ≤ g → h' ≤ g
  | 0, h, _, hf, _ => by omega
  | fuel + 1, h, hg, hf, hmin => by
    rw [shellGrow]
    by_cases hh : h < N / 3
    · rw [if_pos hh]
      refine shellGrow_spec N fuel (3 * h + 1) (IsGap.step h hg) (by omega) ?_
      intro g hg' hNg
      exact hg'.next_le hg (by omega)
    · rw [if_neg hh]
      exact ⟨h, rfl, hg, by omega, hmin⟩

theorem shellInner_total (lt : α → α → Bool) (h : Nat) (hh : 1 ≤ h) :
    ∀ (fuel j : Nat) (s : Sortable α), j < Len s → j < fuel →
    ∃ s', shellInner lt h fuel j s = .ok s' ∧ s'.elems.Perm s.elems ∧
      ((h ≤ j → lessAt lt s.elems j (j - h) = false) →
        s'.elems = s.elems ∧ s'.exchCalls = s.exchCalls)
  | 0, j, s, _, hf => by omega
  | fuel + 1, j, s, hj, hf => by
    rw [shellInner]
    by_cases hjh : j ≥ h
    · rw [if_pos hjh, Less_eq lt s hj (by omega), bind_ok]
      cases hb : lessAt lt s.elems j (j - h)
      · exact ⟨_, rfl, List.Perm.refl _, fun _ => ⟨rfl, rfl⟩⟩
      · simp only [if_true]
        rw [Exch_eq _ (by show j < Len s; omega) (by show j - h < Len s; omega), bind_ok]
        obtain ⟨s', e, p, -⟩ := shellInner_total lt h hh fuel (j - h)
          ⟨swap s.elems j (j - h), s.lessCalls + 1, s.exchCalls + 1⟩
          (by show j - h < (swap s.elems j (j - h)).length; rw [length_swap]
              unfold Len at hj; omega) (by omega)
        refine ⟨s', e, p.trans (swap_perm _ _ _), fun h' => ?_⟩
        exact absurd (h' hjh) (by simp)
    · rw [if_neg hjh]
      exact ⟨s, rfl, List.Perm.refl _, fun _ => ⟨rfl, rfl⟩⟩

theorem shellInner_sorted {lt : α → α → Bool} (h : Nat)
    (hh : 1 ≤ h) (i : Nat) :
    ∀ (fuel j : Nat) (s s' : Sortable α), StrictWeakOrderOn lt s.elems → i < Len s → j ≤ i →
    (∀ k, h ≤ k → k ≤ i → k ≠ j → lessAt lt s.elems k (k - h) = false) →
    (h ≤ j → j + h ≤ i → lessAt lt s.elems (j + h) (j - h) = false) →
    shellInner lt h fuel j s = .ok s' →
    ∀ k, h ≤ k → k ≤ i → lessAt lt s'.elems k (k - h) = false
  | 0, j, s, s', hlt, _, _, _, _, he => by
    rw [shellInner] at he; cases he
  | fuel + 1, j, s, s', hlt, hi, hj, h1, h2, he => by
    rw [shellInner] at he
    by_cases hjh : j ≥ h
    · rw [if_pos hjh, Less_eq lt s (by omega) (by omega), bind_ok] at he
      cases hb : lessAt lt s.elems j (j - h)
      · rw [hb] at he
        cases he
        intro k hk1 hk2
        by_cases hkj : k = j
        · subst hkj; exact hb
        · exact h1 k hk1 hk2 hkj
      · rw [hb] at he
        simp only [if_true] at he
        rw [Exch_eq _ (by show j < Len s; omega) (by show j - h < Len s; omega), bind_ok] at he
        have hj1 : j < s.elems.length := by unfold Len at hi; omega
        have hj0 : j - h < s.elems.length := by omega
        refine shellInner_sorted h hh i fuel (j - h)
          ⟨swap s.elems j (j - h), s.lessCalls + 1, s.exchCalls + 1⟩ s'
          (hlt.perm (swap_perm _ _ _))
          (by show i < (swap s.elems j (j - h)).length; rw [length_swap]
              unfold Len at hi; exact hi) (by omega) ?_ ?_ he
        · intro k hk1 hk2 hkj
          show lessAt lt (swap s.elems j (j - h)) k (k - h) = false
          rw [lessAt_swap lt _ hj1 hj0]
          by_cases e1 : k = j
          · subst e1
            rw [swapIdx_left, swapIdx_right]
            exact lessAt_asymm hlt _ _ hb
          · by_cases e2 : k = j + h
            · subst e2
              rw [swapIdx_of_ne (by omega) (by omega),
                show j + h - h = j by omega, swapIdx_left]
              exact h2 hjh hk2
            · rw [swapIdx_of_ne e1 hkj, swapIdx_of_ne (by omega) (by omega)]
              exact h1 k hk1 hk2 e1
        · intro hj1' _
          show lessAt lt (swap s.elems j (j - h)) (j - h + h) (j - h - h) = false
          rw [lessAt_swap lt _ hj1 hj0, show j - h + h = j by omega, swapIdx_left,
            swapIdx_of_ne (by omega) (by omega)]
          exact h1 (j - h) hj1' (by omega) (by omega)
    · rw [if_neg hjh] at he
      cases he
      intro k hk1 hk2
      exact h1 k hk1 hk2 (by omega)

theorem shellPass_total (lt : α → α → Bool) (N h : Nat) (hh : 1 ≤ h) :
    ∀ (fuel i : Nat) (s : Sortable α), Len s = N → N - i < fuel →
    ∃ s', shellPass lt N h fuel i s = .ok s' ∧ s'.elems.Perm s.elems ∧
      ((∀ k, i ≤ k → k < N → h ≤ k → lessAt lt s.elems k (k - h) = false) →
        s'.elems = s.elems ∧ s'.exchCalls = s.exchCalls)
  | 0, i, s, _, hf => by omega
  | fuel + 1, i, s, hn, hf => by
    rw [shellPass]
    by_cases hin : i < N
    · rw [if_pos hin]
      obtain ⟨s1, e1, p1, u1⟩ := shellInner_total lt h hh (i + 1) i s (by omega) (by omega)
      rw [e1, bind_ok]
      obtain ⟨s', e2, p2, u2⟩ := shellPass_total lt N h hh fuel (i + 1) s1
        ((perm_Len p1).trans hn) (by omega)
      refine ⟨s', e2, p2.trans p1, fun hs => ?_⟩
      obtain ⟨a1, b1⟩ := u1 (fun hi => hs i (le_refl _) hin hi)
      obtain ⟨a2, b2⟩ := u2 (fun k hk1 hk2 hk3 => by rw [a1]; exact hs k (by omega) hk2 hk3)
      exact ⟨a2.trans a1, b2.trans b1⟩
    · rw [if_neg hin]
      exact ⟨s, rfl, List.Perm.refl _, fun _ => ⟨rfl, rfl⟩⟩

theorem shellPass_sorted {lt : α → α → Bool} (N h : Nat)
    (hh : 1 ≤ h) :
    ∀ (fuel i : Nat) (s s' : Sortable α), StrictWeakOrderOn lt s.elems → Len s = N →
    (∀ k, h ≤ k → k < i → lessAt lt s.elems k (k - h) = false) →
    shellPass lt N h fuel i s = .ok s' →
    ∀ k, h ≤ k → k < N → lessAt lt s'.elems k (k - h) = false
  | 0, i, s, s', hlt, _, _, he => by
    rw [shellPass] at he; cases he
  | fuel + 1, i, s, s', hlt, hn, hs, he => by
    rw [shellPass] at he
    by_cases hin : i < N
    · rw [if_pos hin] at he
      obtain ⟨s1, e1, p1, -⟩ := shellInner_total lt h hh (i + 1) i s (by omega) (by omega)
      rw [e1, bind_ok] at he
      have hs1 := shellInner_sorted h hh i (i + 1) i s s1 hlt (by omega) (le_refl _)
        (fun k hk1 hk2 hk3 => hs k hk1 (by omega)) (fun _ h' => by omega) e1
      exact shellPass_sorted N h hh fuel (i + 1) s1 s' (hlt.perm p1)
        ((perm_Len p1).trans hn)
        (fun k hk1 hk2 => hs1 k hk1 (by omega)) he
    · rw [if_neg hin] at he
      cases he
      exact fun k hk1 hk2 => hs k hk1 (by omega)

theorem shellGaps_total (lt : α → α → Bool) (N : Nat) :
    ∀ (fuel h : Nat) (s : Sortable α), Len s = N → h < fuel →
    ∃ s', shellGaps lt N fuel h s = .ok s' ∧ s'.elems.Perm s.elems ∧
      ((∀ p q, p < q → q < N → lessAt lt s.elems q p = false) →
        s'.elems = s.elems ∧ s'.exchCalls = s.exchCalls)
  | 0, h, s, _, hf => by omega
  | fuel + 1, h, s, hn, hf => by
    rw [shellGaps]
    by_cases hh : h ≥ 1
    · rw [if_pos hh]
      obtain ⟨s1, e1, p1, u1⟩ := shellPass_total lt N h hh (N + 1) h s hn (by omega)
      rw [e1, bind_ok]
      obtain ⟨s', e2, p2, u2⟩ := shellGaps_total lt N fuel (h / 3) s1
        ((perm_Len p1).trans hn) (by omega)
      refine ⟨s', e2, p2.trans p1, fun hs => ?_⟩
      obtain ⟨a1, b1⟩ := u1 (fun k _ hk2 hk3 => hs (k - h) k (by omega) hk2)
      obtain ⟨a2, b2⟩ := u2 (by rw [a1]; exact hs)
      exact ⟨a2.trans a1, b2.trans b1⟩
    · rw [if_neg hh]
      exact ⟨s, rfl, List.Perm.refl _, fun _ => ⟨rfl, rfl⟩⟩

theorem shellGaps_sorted {lt : α → α → Bool} (N : Nat) :
    ∀ (fuel h : Nat) (s s' : Sortable α), StrictWeakOrderOn lt s.elems → Len s = N → IsGap h →
    shellGaps lt N fuel h s = .ok s' →
    ∀ k, 1 ≤ k → k < N → lessAt lt s'.elems k (k - 1) = false
  | 0, h, s, s', hlt, _, _, he => by
    rw [shellGaps] at he; cases he
  | fuel + 1, h, s, s', hlt, hn, hg, he => by
    rw [shellGaps, if_pos hg.pos] at he
    obtain ⟨s1, e1, p1, -⟩ := shellPass_total lt N h hg.pos (N + 1) h s hn (by omega)
    rw [e1, bind_ok] at he
    cases hg with
    | one =>
      have hs1 := shellPass_sorted N 1 (le_refl _) (N + 1) 1 s s1 hlt hn
        (fun k hk1 hk2 => by omega) e1
      cases fuel with
      | zero => rw [shellGaps] at he; cases he
      | succ fuel =>
        rw [shellGaps, if_neg (by decide)] at he
        cases he
        exact hs1
    | step h' hg' =>
      rw [show (3 * h' + 1) / 3 = h' by omega] at he
      exact shellGaps_sorted N fuel h' s1 s' (hlt.perm p1)
        ((perm_Len p1).trans hn) hg' he

/-! ## The four procedures as a whole -/

theorem Less_fst (lt : α → α → Bool) (s : Sortable α) {i j : Nat} (hi : i < Len s)
    (hj : j < Len s) : Except.map Prod.fst (Less lt s i j) = .ok (lessAt lt s.elems i j) := by
  rw [Less_eq lt s hi hj]; rfl

theorem adj_iff_Less (lt : α → α → Bool) (s : Sortable α) :
    (∀ k, 1 ≤ k → k < s.elems.length → lessAt lt s.elems k (k - 1) = false) ↔
      ∀ i, 1 ≤ i → i < Len s → Except.map Prod.fst (Less lt s i (i - 1)) = .ok false := by
  constructor
  · intro h i hi1 hi2
    rw [Less_fst lt s hi2 (by omega), h i hi1 hi2]
  · intro h k hk1 hk2
    have := h k hk1 hk2
    rw [Less_fst lt s hk2 (by show k - 1 < s.elems.length; omega)] at this
    exact Except.ok.inj this

theorem sorted_post (lt : α → α → Bool) (s : Sortable α)
    (h : ∀ k, 1 ≤ k → k < Len s → lessAt lt s.elems k (k - 1) = false) :
    Except.map Prod.fst (IsSorted lt s) = .ok true ∧
      ∀ i, 1 ≤ i → i < Len s → Except.map Prod.fst (Less lt s i (i - 1)) = .ok false :=
  ⟨(IsSorted_true_iff lt s).2 ((sortedAdj_iff lt s.elems).2 h), (adj_iff_Less lt s).1 h⟩

theorem InsertionSort_total (lt : α → α → Bool) (s : Sortable α) :
    ∃ s', InsertionSort lt s = .ok s' ∧ s'.elems.Perm s.elems ∧
      (SortedAdj lt s.elems → s'.elems = s.elems ∧ s'.exchCalls = s.exchCalls) := by
  obtain ⟨s', e, p, u⟩ := insertionOuter_total lt (Len s) (Len s + 1) 1 s rfl (by omega)
  exact ⟨s', e, p, fun hs => u (fun k _ hk2 hk3 => (sortedAdj_iff lt s.elems).1 hs k hk3 hk2)⟩

theorem InsertionSort_sorted {lt : α → α → Bool} {s s' : Sortable α}
    (hlt : StrictWeakOrderOn lt s.elems) (he : InsertionSort lt s = .ok s') :
    ∀ k, 1 ≤ k → k < Len s' → lessAt lt s'.elems k (k - 1) = false := by
  obtain ⟨s1, e, p, -⟩ := InsertionSort_total lt s
  have hs : s1 = s' := Except.ok.inj (e.symm.trans he)
  subst hs
  rw [perm_Len p]
  exact insertionOuter_sorted (Len s) (Len s + 1) 1 s s1 hlt rfl (le_refl _)
    (fun k hk1 hk2 => by omega) e

theorem SelectionSort_total (lt : α → α → Bool) (s : Sortable α) :
    ∃ s', SelectionSort lt s = .ok s' ∧ s'.elems.Perm s.elems ∧
      ((∀ p q, p < q → q < Len s → lessAt lt s.elems q p = false) → s'.elems = s.elems) :=
  selectionOuter_total lt (Len s) (Len s + 1) 0 s rfl (by omega)

theorem SelectionSort_sorted {lt : α → α → Bool} {s s' : Sortable α}
    (hlt : StrictWeakOrderOn lt s.elems) (he : SelectionSort lt s = .ok s') :
    ∀ k, 1 ≤ k → k < Len s' → lessAt lt s'.elems k (k - 1) = false := by
  obtain ⟨s1, e, p, -⟩ := SelectionSort_total lt s
  have hs : s1 = s' := Except.ok.inj (e.symm.trans he)
  subst hs
  rw [perm_Len p]
  exact selectionOuter_sorted (Len s) (Len s + 1) 0 s s1 hlt rfl
    (fun p q hp => by omega) e

theorem BubbleSort_total (lt : α → α → Bool) (s : Sortable α) :
    ∃ s', BubbleSort lt s = .ok s' ∧ s'.elems.Perm s.elems ∧
      (SortedAdj lt s.elems → s'.elems = s.elems ∧ s'.exchCalls = s.exchCalls) := by
  unfold BubbleSort
  obtain ⟨s', e, p⟩ := bubbleOuter_total lt (Len s) s (le_refl _)
  refine ⟨s', e, p, fun hs => ?_⟩
  have hs' := (sortedAdj_iff lt s.elems).1 hs
  cases hn : Len s with
  | zero => rw [hn, bubbleOuter] at e; cases e; exact ⟨rfl, rfl⟩
  | succ n =>
    rw [hn, bubbleOuter] at e
    by_cases h1 : n + 1 > 1
    · rw [if_pos h1] at e
      obtain ⟨b, s1, e1, -, u1⟩ := bubbleInner_total lt (n + 1) (n + 1) 0 false s (by omega)
        (by omega)
      obtain ⟨hb, u⟩ := u1 (fun k _ hk2 => hs' (k + 1) (by omega) (by unfold Len at hn; omega))
      subst hb
      rw [e1, bind_ok] at e
      cases e
      exact u
    · rw [if_neg h1] at e; cases e; exact ⟨rfl, rfl⟩

theorem BubbleSort_sorted {lt : α → α → Bool} {s s' : Sortable α}
    (hlt : StrictWeakOrderOn lt s.elems) (he : BubbleSort lt s = .ok s') :
    ∀ k, 1 ≤ k → k < Len s' → lessAt lt s'.elems k (k - 1) = false := by
  obtain ⟨s1, e, p, -⟩ := BubbleSort_total lt s
  have hs : s1 = s' := Except.ok.inj (e.symm.trans he)
  subst hs
  rw [perm_Len p]
  exact bubbleOuter_sorted (Len s) (Len s) s s1 hlt rfl (le_refl _)
    (fun p q _ h1 h2 => by omega) e

theorem shellGrow_first (N : Nat) :
    ∃ h, shellGrow N (N + 1) 1 = .ok h ∧ IsGap h ∧ N / 3 ≤ h ∧
      ∀ g, IsGap g → N / 3 ≤ g → h ≤ g :=
  shellGrow_spec N (N + 1) 1 IsGap.one (by omega) (fun _ hg _ => hg.pos)

theorem ShellSort_eq (lt : α → α → Bool) (s : Sortable α) :
    ∃ h, shellGrow (Len s) (Len s + 1) 1 = .ok h ∧ IsGap h ∧
      ShellSort lt s = shellGaps lt (Len s) (h + 1) h s := by
  obtain ⟨h, e, hg, -⟩ := shellGrow_first (Len s)
  refine ⟨h, e, hg, ?_⟩
  unfold ShellSort
  rw [e, bind_ok]

theorem ShellSort_total (lt : α → α → Bool) (s : Sortable α) :
    ∃ s', ShellSort lt s = .ok s' ∧ s'.elems.Perm s.elems ∧
      ((∀ p q, p < q → q < Len s → lessAt lt s.elems q p = false) →
        s'.elems = s.elems ∧ s'.exchCalls = s.exchCalls) := by
  obtain ⟨h, -, -, e⟩ := ShellSort_eq lt s
  rw [e]
  exact shellGaps_total lt (Len s) (h + 1) h s rfl (by omega)

theorem ShellSort_sorted {lt : α → α → Bool} {s s' : Sortable α}
    (hlt : StrictWeakOrderOn lt s.elems) (he : ShellSort lt s = .ok s') :
    ∀ k, 1 ≤ k → k < Len s' → lessAt lt s'.elems k (k - 1) = false := by
  obtain ⟨s1, e, p, -⟩ := ShellSort_total lt s
  have hs : s1 = s' := Except.ok.inj (e.symm.trans he)
  subst hs
  rw [perm_Len p]
  obtain ⟨h, -, hg, e'⟩ := ShellSort_eq lt s
  rw [e'] at e
  exact shellGaps_sorted (Len s) (h + 1) h s s1 hlt rfl hg e

/-! ## The claims -/

/-- C1: for every sequence whose less relation is a strict weak ordering,
`InsertionSort` returns, `IsSorted` then returns true on the sequence, and no
position `i` with `1 ≤ i < N` has `less(i, i-1)`. -/
theorem InsertionSort_isSorted (lt : α → α → Bool) (s : Sortable α)
    (hlt : StrictWeakOrderOn lt s.elems) :
    ∃ s', InsertionSort lt s = .ok s' ∧
      Except.map Prod.fst (IsSorted lt s') = .ok true ∧
      ∀ i, 1 ≤ i → i < Len s' → Except.map Prod.fst (Less lt s' i (i - 1)) = .ok false := by
  obtain ⟨s', e, -⟩ := InsertionSort_total lt s
  exact ⟨s', e, sorted_post lt s' (InsertionSort_sorted hlt e)⟩

/-- The statement of C1 at the floats `[3.1, 1.4, 1.5, 9.2, 6.5]`. -/
theorem InsertionSort_isSorted_witness :
    StrictWeakOrderOn floatLt (Floats [3.1, 1.4, 1.5, 9.2, 6.5]).elems ∧
    ∃ s', InsertionSort floatLt (Floats [3.1, 1.4, 1.5, 9.2, 6.5]) = .ok s' ∧
      Except.map Prod.fst (IsSorted floatLt s') = .ok true ∧
      ∀ i, 1 ≤ i → i < Len s' →
        Except.map Prod.fst (Less floatLt s' i (i - 1)) = .ok false :=
  ⟨floatLt_swo _, InsertionSort_isSorted floatLt _ (floatLt_swo _)⟩

/-- C2: for every sequence whose less relation is a strict weak ordering,
`SelectionSort` returns, `IsSorted` then returns true on the sequence, and no
position `i` with `1 ≤ i < N` has `less(i, i-1)`. -/
theorem SelectionSort_isSorted (lt : α → α → Bool) (s : Sortable α)
    (hlt : StrictWeakOrderOn lt s.elems) :
    ∃ s', SelectionSort lt s = .ok s' ∧
      Except.map Prod.fst (IsSorted lt s') = .ok true ∧
      ∀ i, 1 ≤ i → i < Len s' → Except.map Prod.fst (Less lt s' i (i - 1)) = .ok false := by
  obtain ⟨s', e, -⟩ := SelectionSort_total lt s
  exact ⟨s', e, sorted_post lt s' (SelectionSort_sorted hlt e)⟩

/-- The statement of C2 at the floats `[3.1, 1.4, 1.5, 9.2, 6.5]`. -/
theorem SelectionSort_isSorted_witness :
    StrictWeakOrderOn floatLt (Floats [3.1, 1.4, 1.5, 9.2, 6.5]).elems ∧
    ∃ s', SelectionSort floatLt (Floats [3.1, 1.4, 1.5, 9.2, 6.5]) = .ok s' ∧
      Except.map Prod.fst (IsSorted floatLt s') = .ok true ∧
      ∀ i, 1 ≤ i → i < Len s' →
        Except.map Prod.fst (Less floatLt s' i (i - 1)) = .ok false :=
  ⟨floatLt_swo _, SelectionSort_isSorted floatLt _ (floatLt_swo _)⟩

/-- C3: for every sequence whose less relation is a strict weak ordering,
`BubbleSort` returns (whether or not it stops early after a pass without
exchange), `IsSorted` then returns true on the sequence, and no position `i`
with `1 ≤ i < N` has `less(i, i-1)`. -/
theorem BubbleSort_isSorted (lt : α → α → Bool) (s : Sortable α)
    (hlt : StrictWeakOrderOn lt s.elems) :
    ∃ s', BubbleSort lt s = .ok s' ∧
      Except.map Prod.fst (IsSorted lt s') = .ok true ∧
      ∀ i, 1 ≤ i → i < Len s' → Except.map Prod.fst (Less lt s' i (i - 1)) = .ok false := by
  obtain ⟨s', e, -⟩ := BubbleSort_total lt s
  exact ⟨s', e, sorted_post lt s' (BubbleSort_sorted hlt e)⟩

/-- The statement of C3 at the floats `[3.1, 1.4, 1.5, 9.2, 6.5]`. -/
theorem BubbleSort_isSorted_witness :
    StrictWeakOrderOn floatLt (Floats [3.1, 1.4, 1.5, 9.2, 6.5]).elems ∧
    ∃ s', BubbleSort floatLt (Floats [3.1, 1.4, 1.5, 9.2, 6.5]) = .ok s' ∧
      Except.map Prod.fst (IsSorted floatLt s') = .ok true ∧
      ∀ i, 1 ≤ i → i < Len s' →
        Except.map Prod.fst (Less floatLt s' i (i - 1)) = .ok false :=
  ⟨floatLt_swo _, BubbleSort_isSorted floatLt _ (floatLt_swo _)⟩

/-- C4: for every sequence whose less relation is a strict weak ordering,
`ShellSort` returns, `IsSorted` then returns true on the sequence, and no
position `i` with `1 ≤ i < N` has `less(i, i-1)`. -/
theorem ShellSort_isSorted (lt : α → α → Bool) (s : Sortable α)
    (hlt : StrictWeakOrderOn lt s.elems) :
    ∃ s', ShellSort lt s = .ok s' ∧
      Except.map Prod.fst (IsSorted lt s') = .ok true ∧
      ∀ i, 1 ≤ i → i < Len s' → Except.map Prod.fst (Less lt s' i (i - 1)) = .ok false := by
  obtain ⟨s', e, -⟩ := ShellSort_total lt s
  exact ⟨s', e, sorted_post lt s' (ShellSort_sorted hlt e)⟩

/-- The statement of C4 at the floats `[3.1, 1.4, 1.5, 9.2, 6.5]`. -/
theorem ShellSort_isSorted_witness :
    StrictWeakOrderOn floatLt (Floats [3.1, 1.4, 1.5, 9.2, 6.5]).elems ∧
    ∃ s', ShellSort floatLt (Floats [3.1, 1.4, 1.5, 9.2, 6.5]) = .ok s' ∧
      Except.map Prod.fst (IsSorted floatLt s') = .ok true ∧
      ∀ i, 1 ≤ i → i < Len s' →
        Except.map Prod.fst (Less floatLt s' i (i - 1)) = .ok false :=
  ⟨floatLt_swo _, ShellSort_isSorted floatLt _ (floatLt_swo _)⟩

/-- C5: for every input sequence and any less relation whatsoever, each of
`SelectionSort`, `InsertionSort`, `BubbleSort` and `ShellSort` returns, and the
sequence after the call is a permutation of the sequence before the call (same
elements, same multiplicities) of the same length. -/
theorem sorts_perm (lt : α → α → Bool) (s : Sortable α) :
    (∃ s', SelectionSort lt s = .ok s' ∧ s'.elems.Perm s.elems ∧ Len s' = Len s) ∧
    (∃ s', InsertionSort lt s = .ok s' ∧ s'.elems.Perm s.elems ∧ Len s' = Len s) ∧
    (∃ s', BubbleSort lt s = .ok s' ∧ s'.elems.Perm s.elems ∧ Len s' = Len s) ∧
    (∃ s', ShellSort lt s = .ok s' ∧ s'.elems.Perm s.elems ∧ Len s' = Len s) := by
  obtain ⟨s1, e1, p1, -⟩ := SelectionSort_total lt s
  obtain ⟨s2, e2, p2, -⟩ := InsertionSort_total lt s
  obtain ⟨s3, e3, p3, -⟩ := BubbleSort_total lt s
  obtain ⟨s4, e4, p4, -⟩ := ShellSort_total lt s
  exact ⟨⟨s1, e1, p1, perm_Len p1⟩, ⟨s2, e2, p2, perm_Len p2⟩, ⟨s3, e3, p3, perm_Len p3⟩,
    ⟨s4, e4, p4, perm_Len p4⟩⟩

/-- C6: `IsSorted` returns a Boolean and leaves the sequence as it was; the
Boolean is false exactly when some position `i` with `1 ≤ i < N` has
`less(i, i-1)`; for a sequence of length 0 or 1 it is true. -/
theorem IsSorted_false_iff (lt : α → α → Bool) (s : Sortable α) :
    ∃ b s', IsSorted lt s = .ok (b, s') ∧ s'.elems = s.elems ∧
      (b = false ↔
        ∃ i, 1 ≤ i ∧ i < Len s ∧ Except.map Prod.fst (Less lt s i (i - 1)) = .ok true) ∧
      (Len s ≤ 1 → b = true) := by
  obtain ⟨b, c, e, h⟩ := IsSorted_spec lt s
  have h' := h.trans ((sortedAdj_iff lt s.elems).trans (adj_iff_Less lt s))
  refine ⟨b, _, e, rfl, ?_, fun hl => h'.2 (fun i hi1 hi2 => by omega)⟩
  constructor
  · intro hb
    by_contra hne
    have : b = true := h'.2 (fun i hi1 hi2 => by
      rw [Less_fst lt s hi2 (by omega)]
      cases hv : lessAt lt s.elems i (i - 1)
      · rfl
      · exact absurd ⟨i, hi1, hi2, by rw [Less_fst lt s hi2 (by omega), hv]⟩ hne)
    rw [hb] at this
    cases this
  · rintro ⟨i, hi1, hi2, hv⟩
    cases hb : b
    · rfl
    · have := h'.1 hb i hi1 hi2
      rw [hv] at this
      cases this

theorem fix_of_sorted {lt : α → α → Bool} {s : Sortable α}
    (hlt : StrictWeakOrderOn lt s.elems)
    (hs : ∀ k, 1 ≤ k → k < Len s → lessAt lt s.elems k (k - 1) = false) :
    (∃ s', SelectionSort lt s = .ok s' ∧ s'.elems = s.elems) ∧
    (∃ s', InsertionSort lt s = .ok s' ∧ s'.elems = s.elems) ∧
    (∃ s', BubbleSort lt s = .ok s' ∧ s'.elems = s.elems) ∧
    (∃ s', ShellSort lt s = .ok s' ∧ s'.elems = s.elems) := by
  have hadj : SortedAdj lt s.elems := (sortedAdj_iff lt s.elems).2 hs
  have hglob : ∀ p q, p < q → q < Len s → lessAt lt s.elems q p = false :=
    lessAt_of_sorted s.elems hlt hs
  obtain ⟨s1, e1, -, u1⟩ := SelectionSort_total lt s
  obtain ⟨s2, e2, -, u2⟩ := InsertionSort_total lt s
  obtain ⟨s3, e3, -, u3⟩ := BubbleSort_total lt s
  obtain ⟨s4, e4, -, u4⟩ := ShellSort_total lt s
  exact ⟨⟨s1, e1, u1 hglob⟩, ⟨s2, e2, (u2 hadj).1⟩, ⟨s3, e3, (u3 hadj).1⟩,
    ⟨s4, e4, (u4 hglob).1⟩⟩

/-- C7: under a strict weak ordering, each of `SelectionSort`,
`InsertionSort`, `BubbleSort` and `ShellSort` leaves a sequence `s` on which
`IsSorted` returns true element-wise unchanged; hence, for every sequence `t`,
running an algorithm on its own result gives that result again. -/
theorem sorts_fix_sorted (lt : α → α → Bool) (s t : Sortable α)
    (hs : StrictWeakOrderOn lt s.elems) (ht : StrictWeakOrderOn lt t.elems)
    (hsorted : Except.map Prod.fst (IsSorted lt s) = .ok true) :
    ((∃ s', SelectionSort lt s = .ok s' ∧ s'.elems = s.elems) ∧
     (∃ s', InsertionSort lt s = .ok s' ∧ s'.elems = s.elems) ∧
     (∃ s', BubbleSort lt s = .ok s' ∧ s'.elems = s.elems) ∧
     (∃ s', ShellSort lt s = .ok s' ∧ s'.elems = s.elems)) ∧
    ((∃ t1 t2, SelectionSort lt t = .ok t1 ∧ SelectionSort lt t1 = .ok t2 ∧
        t2.elems = t1.elems) ∧
     (∃ t1 t2, InsertionSort lt t = .ok t1 ∧ InsertionSort lt t1 = .ok t2 ∧
        t2.elems = t1.elems) ∧
     (∃ t1 t2, BubbleSort lt t = .ok t1 ∧ BubbleSort lt t1 = .ok t2 ∧
        t2.elems = t1.elems) ∧
     (∃ t1 t2, ShellSort lt t = .ok t1 ∧ ShellSort lt t1 = .ok t2 ∧
        t2.elems = t1.elems)) := by
  refine ⟨fix_of_sorted hs ((sortedAdj_iff lt s.elems).1 ((IsSorted_true_iff lt s).1 hsorted)),
    ?_, ?_, ?_, ?_⟩
  · obtain ⟨t1, e1, p1, -⟩ := SelectionSort_total lt t
    obtain ⟨t2, e2, h2⟩ := (fix_of_sorted (ht.perm p1) (SelectionSort_sorted ht e1)).1
    exact ⟨t1, t2, e1, e2, h2⟩
  · obtain ⟨t1, e1, p1, -⟩ := InsertionSort_total lt t
    obtain ⟨t2, e2, h2⟩ := (fix_of_sorted (ht.perm p1) (InsertionSort_sorted ht e1)).2.1
    exact ⟨t1, t2, e1, e2, h2⟩
  · obtain ⟨t1, e1, p1, -⟩ := BubbleSort_total lt t
    obtain ⟨t2, e2, h2⟩ := (fix_of_sorted (ht.perm p1) (BubbleSort_sorted ht e1)).2.2.1
    exact ⟨t1, t2, e1, e2, h2⟩
  · obtain ⟨t1, e1, p1, -⟩ := ShellSort_total lt t
    obtain ⟨t2, e2, h2⟩ := (fix_of_sorted (ht.perm p1) (ShellSort_sorted ht e1)).2.2.2
    exact ⟨t1, t2, e1, e2, h2⟩

/-- The statement of C7 at the sorted floats `[1.4, 1.5, 1.5, 3.1]` and, for the
second run, at `[3.1, 1.4, 1.5, 9.2, 6.5]`. -/
theorem sorts_fix_sorted_witness :
    StrictWeakOrderOn floatLt (Floats [1.4, 1.5, 1.5, 3.1]).elems ∧
    StrictWeakOrderOn floatLt (Floats [3.1, 1.4, 1.5, 9.2, 6.5]).elems ∧
    Except.map Prod.fst (IsSorted floatLt (Floats [1.4, 1.5, 1.5, 3.1])) = .ok true ∧
    ((∃ s', SelectionSort floatLt (Floats [1.4, 1.5, 1.5, 3.1]) = .ok s' ∧
        s'.elems = (Floats [1.4, 1.5, 1.5, 3.1]).elems) ∧
     (∃ s', InsertionSort floatLt (Floats [1.4, 1.5, 1.5, 3.1]) = .ok s' ∧
        s'.elems = (Floats [1.4, 1.5, 1.5, 3.1]).elems) ∧
     (∃ s', BubbleSort floatLt (Floats [1.4, 1.5, 1.5, 3.1]) = .ok s' ∧
        s'.elems = (Floats [1.4, 1.5, 1.5, 3.1]).elems) ∧
     (∃ s', ShellSort floatLt (Floats [1.4, 1.5, 1.5, 3.1]) = .ok s' ∧
        s'.elems = (Floats [1.4, 1.5, 1.5, 3.1]).elems)) ∧
    ((∃ t1 t2, SelectionSort floatLt (Floats [3.1, 1.4, 1.5, 9.2, 6.5]) = .ok t1 ∧
        SelectionSort floatLt t1 = .ok t2 ∧ t2.elems = t1.elems) ∧
     (∃ t1 t2, InsertionSort floatLt (Floats [3.1, 1.4, 1.5, 9.2, 6.5]) = .ok t1 ∧
        InsertionSort floatLt t1 = .ok t2 ∧ t2.elems = t1.elems) ∧
     (∃ t1 t2, BubbleSort floatLt (Floats [3.1, 1.4, 1.5, 9.2, 6.5]) = .ok t1 ∧
        BubbleSort floatLt t1 = .ok t2 ∧ t2.elems = t1.elems) ∧
     (∃ t1 t2, ShellSort floatLt (Floats [3.1, 1.4, 1.5, 9.2, 6.5]) = .ok t1 ∧
        ShellSort floatLt t1 = .ok t2 ∧ t2.elems = t1.elems)) :=
  ⟨floatLt_swo _, floatLt_swo _, by with_unfolding_all rfl,
    sorts_fix_sorted floatLt (Floats [1.4, 1.5, 1.5, 3.1]) (Floats [3.1, 1.4, 1.5, 9.2, 6.5])
      (floatLt_swo _) (floatLt_swo _) (by with_unfolding_all rfl)⟩

/-- C8: for every sequence on which `IsSorted` returns true (for any less
relation), `InsertionSort` and `BubbleSort` each return without a single call
of `Exch`: the exchange counter is what it was before the call. -/
theorem sorted_input_no_exchange (lt : α → α → Bool) (s : Sortable α)
    (hsorted : Except.map Prod.fst (IsSorted lt s) = .ok true) :
    (∃ s', InsertionSort lt s = .ok s' ∧ s'.exchCalls = s.exchCalls) ∧
    (∃ s', BubbleSort lt s = .ok s' ∧ s'.exchCalls = s.exchCalls) := by
  have hadj := (IsSorted_true_iff lt s).1 hsorted
  obtain ⟨s2, e2, -, u2⟩ := InsertionSort_total lt s
  obtain ⟨s3, e3, -, u3⟩ := BubbleSort_total lt s
  exact ⟨⟨s2, e2, (u2 hadj).2⟩, ⟨s3, e3, (u3 hadj).2⟩⟩

/-- The statement of C8 at the sorted floats `[1.4, 1.5, 1.5, 3.1]`. -/
theorem sorted_input_no_exchange_witness :
    Except.map Prod.fst (IsSorted floatLt (Floats [1.4, 1.5, 1.5, 3.1])) = .ok true ∧
    (∃ s', InsertionSort floatLt (Floats [1.4, 1.5, 1.5, 3.1]) = .ok s' ∧
      s'.exchCalls = (Floats [1.4, 1.5, 1.5, 3.1]).exchCalls) ∧
    (∃ s', BubbleSort floatLt (Floats [1.4, 1.5, 1.5, 3.1]) = .ok s' ∧
      s'.exchCalls = (Floats [1.4, 1.5, 1.5, 3.1]).exchCalls) :=
  ⟨by with_unfolding_all rfl,
    sorted_input_no_exchange floatLt (Floats [1.4, 1.5, 1.5, 3.1]) (by with_unfolding_all rfl)⟩

/-- C9: on the floats `[3.1, 1.4, 1.5, 9.2, 6.5]`, taken as exact decimals,
each of `SelectionSort`, `InsertionSort`, `BubbleSort` and `ShellSort` leaves
the sequence equal to `[1.4, 1.5, 3.1, 6.5, 9.2]`. -/
theorem sorts_example_floats :
    Except.map Sortable.elems (SelectionSort floatLt (Floats [3.1, 1.4, 1.5, 9.2, 6.5]))
      = .ok [1.4, 1.5, 3.1, 6.5, 9.2] ∧
    Except.map Sortable.elems (InsertionSort floatLt (Floats [3.1, 1.4, 1.5, 9.2, 6.5]))
      = .ok [1.4, 1.5, 3.1, 6.5, 9.2] ∧
    Except.map Sortable.elems (BubbleSort floatLt (Floats [3.1, 1.4, 1.5, 9.2, 6.5]))
      = .ok [1.4, 1.5, 3.1, 6.5, 9.2] ∧
    Except.map Sortable.elems (ShellSort floatLt (Floats [3.1, 1.4, 1.5, 9.2, 6.5]))
      = .ok [1.4, 1.5, 3.1, 6.5, 9.2] :=
  ⟨by with_unfolding_all rfl, by with_unfolding_all rfl, by with_unfolding_all rfl,
    by with_unfolding_all rfl⟩

theorem ShellSort_first_pass (lt : α → α → Bool) (s : Sortable α) (N h : Nat)
    (hN : Len s = N) (e : shellGrow N (N + 1) 1 = .ok h) (hh : 1 ≤ h) :
    ShellSort lt s =
      (shellPass lt N h (N + 1) h s >>= fun s1 => shellGaps lt N h (h / 3) s1) := by
  subst hN
  unfold ShellSort
  rw [e, bind_ok, shellGaps, if_pos hh]

/-- C10, as the code has it: the first gap of `ShellSort`, with which its
first gapped insertion pass runs, is the smallest term of `1, 4, 13, 40, ...`
that is at least `N/3` (integer division); for `N = 10` it is 4. -/
theorem shellSort_first_gap (N : Nat) :
    (∃ h, shellGrow N (N + 1) 1 = .ok h ∧ IsGap h ∧ N / 3 ≤ h ∧
      (∀ g, IsGap g → N / 3 ≤ g → h ≤ g) ∧
      ∀ (lt : α → α → Bool) (s : Sortable α), Len s = N →
        ShellSort lt s =
          (shellPass lt N h (N + 1) h s >>= fun s1 => shellGaps lt N h (h / 3) s1)) ∧
    shellGrow 10 (10 + 1) 1 = .ok 4 := by
  refine ⟨?_, rfl⟩
  obtain ⟨h, e, hg, hge, hmin⟩ := shellGrow_first N
  exact ⟨h, e, hg, hge, hmin, fun lt s hN => ShellSort_first_pass lt s N h hN e hg.pos⟩

/-- C10, as the claim has it, fails at `N = 10`: the loop `for h < N/3` leaves
`h = 4`, which is not below `10/3`, and the first pass of `ShellSort` on ten
elements runs with gap 4, not with gap 1. -/
theorem shellSort_first_gap_ten :
    shellGrow 10 (10 + 1) 1 = .ok 4 ∧ shellGrow 10 (10 + 1) 1 ≠ .ok 1 ∧
    ¬ ((4 : ℚ) < 10 / 3) ∧ ¬ (4 < 10 / 3) ∧
    ShellSort natLt ⟨[9, 8, 7, 6, 5, 4, 3, 2, 1, 0], 0, 0⟩ =
      (shellPass natLt 10 4 11 4 ⟨[9, 8, 7, 6, 5, 4, 3, 2, 1, 0], 0, 0⟩ >>=
        fun s1 => shellGaps natLt 10 4 1 s1) := by
  refine ⟨rfl, ?_, by norm_num, by decide,
    ShellSort_first_pass natLt _ 10 4 rfl rfl (by decide)⟩
  intro h
  cases h

/-! ## The gaps of ShellSort -/

theorem shellGaps_eq_foldlM (lt : α → α → Bool) (N : Nat) :
    ∀ (fuel h : Nat) (s : Sortable α), h < fuel →
    shellGaps lt N fuel h s =
      (shellGapList fuel h).foldlM (fun s g => shellPass lt N g (N + 1) g s) s
  | 0, h, s, hf => by omega
  | fuel + 1, h, s, hf => by
    rw [shellGaps, shellGapList]
    by_cases hh : h ≥ 1
    · rw [if_pos hh, if_pos hh, List.foldlM_cons]
      congr 1
      funext s1
      exact shellGaps_eq_foldlM lt N fuel (h / 3) s1 (by omega)
    · rw [if_neg hh, if_neg hh]
      rfl

theorem shellGapList_le : ∀ (fuel h g : Nat), g ∈ shellGapList fuel h → g ≤ h
  | 0, h, g, hg => by simp [shellGapList] at hg
  | fuel + 1, h, g, hg => by
    rw [shellGapList] at hg
    by_cases hh : h ≥ 1
    · rw [if_pos hh] at hg
      rcases List.mem_cons.1 hg with e | e
      · omega
      · have := shellGapList_le fuel (h / 3) g e
        omega
    · rw [if_neg hh] at hg
      simp at hg

theorem shellGapList_spec : ∀ (fuel h : Nat), IsGap h → h < fuel →
    (shellGapList fuel h).Pairwise (fun a b => b < a) ∧
    (∀ g, g ∈ shellGapList fuel h → IsGap g) ∧
    (shellGapList fuel h).head? = some h ∧
    (shellGapList fuel h).getLast? = some 1
  | 0, h, _, hf => by omega
  | fuel + 1, h, hg, hf => by
    rw [shellGapList, if_pos hg.pos]
    cases hg with
    | one =>
      cases fuel with
      | zero => omega
      | succ fuel =>
        have e : shellGapList (fuel + 1) (1 / 3) = [] := by
          rw [shellGapList, if_neg (by decide)]
        rw [e]
        refine ⟨List.pairwise_singleton _ _, ?_, rfl, rfl⟩
        intro g hg
        rw [List.mem_singleton] at hg
        subst hg
        exact IsGap.one
    | step h' hg' =>
      rw [show (3 * h' + 1) / 3 = h' by omega]
      obtain ⟨h1, h2, h3, h4⟩ := shellGapList_spec fuel h' hg' (by omega)
      refine ⟨List.pairwise_cons.2 ⟨fun g hg => ?_, h1⟩, ?_, rfl, ?_⟩
      · have := shellGapList_le fuel h' g hg
        omega
      · intro g hg
        rcases List.mem_cons.1 hg with e | e
        · subst e; exact IsGap.step h' hg'
        · exact h2 g e
      · cases hl : shellGapList fuel h' with
        | nil => rw [hl] at h3; cases h3
        | cons a t =>
          rw [hl] at h4
          rw [List.getLast?_cons_cons]
          exact h4

theorem shellInner_one (lt : α → α → Bool) :
    ∀ (fuel j : Nat) (s : Sortable α), j < fuel →
    shellInner lt 1 fuel j s = insertionInner lt j s
  | 0, j, s, hf => by omega
  | fuel + 1, 0, s, _ => by
    rw [shellInner, if_neg (by decide), insertionInner]
  | fuel + 1, j + 1, s, hf => by
    rw [shellInner, if_pos (by omega), insertionInner, Nat.add_sub_cancel]
    congr 1
    funext r
    obtain ⟨b, s1⟩ := r
    cases b
    · rfl
    · simp only [if_true]
      congr 1
      funext s2
      exact shellInner_one lt fuel j s2 (by omega)

theorem shellPass_one (lt : α → α → Bool) (N : Nat) :
    ∀ (fuel i : Nat) (s : Sortable α),
    shellPass lt N 1 fuel i s = insertionOuter lt N fuel i s
  | 0, i, s => by rw [shellPass, insertionOuter]
  | fuel + 1, i, s => by
    rw [shellPass, insertionOuter]
    by_cases hi : i < N
    · rw [if_pos hi, if_pos hi, shellInner_one lt (i + 1) i s (by omega)]
      congr 1
      funext s1
      exact shellPass_one lt N fuel (i + 1) s1
    · rw [if_neg hi, if_neg hi]

theorem shellSort_gaps (N : Nat) :
    ∃ h, shellGrow N (N + 1) 1 = .ok h ∧
      (∀ (lt : α → α → Bool) (s : Sortable α), Len s = N →
        ShellSort lt s =
          (shellGapList (h + 1) h).foldlM (fun s g => shellPass lt N g (N + 1) g s) s) ∧
      (shellGapList (h + 1) h).Pairwise (fun a b => b < a) ∧
      (∀ g, g ∈ shellGapList (h + 1) h → IsGap g) ∧
      (shellGapList (h + 1) h).head? = some h ∧
      (shellGapList (h + 1) h).getLast? = some 1 ∧
      (∀ (lt : α → α → Bool) (s : Sortable α), Len s = N →
        shellPass lt N 1 (N + 1) 1 s = InsertionSort lt s) ∧
      1 / 3 = 0 ∧
      (∀ (lt : α → α → Bool) (s : Sortable α) (fuel : Nat),
        shellGaps lt N (fuel + 1) 0 s = .ok s) := by
  obtain ⟨h, e, hg, -⟩ := shellGrow_first N
  obtain ⟨h1, h2, h3, h4⟩ := shellGapList_spec (h + 1) h hg (by omega)
  refine ⟨h, e, fun lt s hN => ?_, h1, h2, h3, h4, fun lt s hN => ?_, rfl, fun lt s fuel => ?_⟩
  · subst hN
    unfold ShellSort
    rw [e, bind_ok]
    exact shellGaps_eq_foldlM lt (Len s) (h + 1) h s (by omega)
  · subst hN
    exact shellPass_one lt (Len s) (Len s + 1) 1 s
  · rw [shellGaps, if_neg (by decide)]

/-! ## Counting the calls of `Exch` and `Less` -/

theorem selectionOuter_exch (lt : α → α → Bool) (n : Nat) :
    ∀ (fuel i : Nat) (s s' : Sortable α), Len s = n →
    selectionOuter lt n fuel i s = .ok s' → s'.exchCalls = s.exchCalls + (n - 1 - i)
  | 0, i, s, s', _, he => by
    rw [selectionOuter] at he; cases he
  | fuel + 1, i, s, s', hn, he => by
    rw [selectionOuter] at he
    by_cases hin : i < n - 1
    · rw [if_pos hin] at he
      obtain ⟨m, c, e, hm, -⟩ := selectionInner_total lt n (n + 1) (i + 1) i s hn (by omega)
        (by omega)
      rw [e, bind_ok] at he
      simp only [] at he
      rw [Exch_eq _ (by show Len s > i; omega) (by show Len s > m; omega), bind_ok] at he
      have := selectionOuter_exch lt n fuel (i + 1) ⟨swap s.elems i m, c, s.exchCalls + 1⟩ s'
        (by show (swap s.elems i m).length = n; rw [length_swap]; exact hn) he
      rw [this]
      show s.exchCalls + 1 + (n - 1 - (i + 1)) = s.exchCalls + (n - 1 - i)
      omega
    · rw [if_neg hin] at he
      have hs : s = s' := Except.ok.inj he
      subst hs
      omega

theorem SelectionSort_exchanges (lt : α → α → Bool) (s : Sortable α) :
    (∃ s', SelectionSort lt s = .ok s' ∧ s'.exchCalls = s.exchCalls + (Len s - 1)) ∧
    (∀ c e, ∃ s', SelectionSort lt ⟨[], c, e⟩ = .ok s' ∧ s'.exchCalls = e) := by
  constructor
  · obtain ⟨s', e, -⟩ := SelectionSort_total lt s
    refine ⟨s', e, ?_⟩
    have := selectionOuter_exch lt (Len s) (Len s + 1) 0 s s' rfl e
    rw [this, Nat.sub_zero]
  · intro c e
    exact ⟨_, rfl, rfl⟩

theorem Less_ok_iff (lt : α → α → Bool) (s : Sortable α) (i j : Nat) :
    (∃ r, Less lt s i j = .ok r) ↔ (i < Len s ∧ j < Len s) := by
  constructor
  · rintro ⟨r, hr⟩
    unfold Less at hr
    unfold Len
    split at hr
    · rename_i x y hx hy
      exact ⟨(List.getElem?_eq_some.1 hx).1, (List.getElem?_eq_some.1 hy).1⟩
    · cases hr
  · rintro ⟨hi, hj⟩
    exact ⟨_, Less_eq lt s hi hj⟩

theorem Exch_ok_iff (s : Sortable α) (i j : Nat) :
    (∃ r, Exch s i j = .ok r) ↔ (i < Len s ∧ j < Len s) := by
  constructor
  · rintro ⟨r, hr⟩
    unfold Exch at hr
    unfold Len
    split at hr
    · rename_i x y hx hy
      exact ⟨(List.getElem?_eq_some.1 hx).1, (List.getElem?_eq_some.1 hy).1⟩
    · cases hr
  · rintro ⟨hi, hj⟩
    exact ⟨_, Exch_eq s hi hj⟩

theorem calls_in_range (lt : α → α → Bool) (s : Sortable α) :
    (∀ i j, (∃ r, Less lt s i j = .ok r) ↔ (i < Len s ∧ j < Len s)) ∧
    (∀ i j, (∃ r, Exch s i j = .ok r) ↔ (i < Len s ∧ j < Len s)) ∧
    (∃ r, IsSorted lt s = .ok r) ∧
    (∃ s', SelectionSort lt s = .ok s') ∧
    (∃ s', InsertionSort lt s = .ok s') ∧
    (∃ s', BubbleSort lt s = .ok s') ∧
    (∃ s', ShellSort lt s = .ok s') ∧
    (∀ c e, IsSorted lt ⟨[], c, e⟩ = .ok (true, ⟨[], c, e⟩) ∧
      SelectionSort lt ⟨[], c, e⟩ = .ok ⟨[], c, e⟩ ∧
      InsertionSort lt ⟨[], c, e⟩ = .ok ⟨[], c, e⟩ ∧
      BubbleSort lt ⟨[], c, e⟩ = .ok ⟨[], c, e⟩ ∧
      ShellSort lt ⟨[], c, e⟩ = .ok ⟨[], c, e⟩) ∧
    (∀ x c e, IsSorted lt ⟨[x], c, e⟩ = .ok (true, ⟨[x], c, e⟩) ∧
      SelectionSort lt ⟨[x], c, e⟩ = .ok ⟨[x], c, e⟩ ∧
      InsertionSort lt ⟨[x], c, e⟩ = .ok ⟨[x], c, e⟩ ∧
      BubbleSort lt ⟨[x], c, e⟩ = .ok ⟨[x], c, e⟩ ∧
      ShellSort lt ⟨[x], c, e⟩ = .ok ⟨[x], c, e⟩) := by
  obtain ⟨b, c, e0, -⟩ := IsSorted_spec lt s
  obtain ⟨s1, e1, -⟩ := SelectionSort_total lt s
  obtain ⟨s2, e2, -⟩ := InsertionSort_total lt s
  obtain ⟨s3, e3, -⟩ := BubbleSort_total lt s
  obtain ⟨s4, e4, -⟩ := ShellSort_total lt s
  exact ⟨Less_ok_iff lt s, Exch_ok_iff s, ⟨_, e0⟩, ⟨s1, e1⟩, ⟨s2, e2⟩, ⟨s3, e3⟩, ⟨s4, e4⟩,
    fun c e => ⟨rfl, rfl, rfl, rfl, by with_unfolding_all rfl⟩,
    fun x c e => ⟨rfl, rfl, rfl, rfl, by with_unfolding_all rfl⟩⟩

/-! ## measureTime -/

theorem measureTime_tail (alg : String) (a a1 : Sortable ℚ)
    (h : ∀ k, 1 ≤ k → k < Len a1 → lessAt floatLt a1.elems k (k - 1) = false) :
    ∃ a2, IsSorted floatLt a1 = .ok (true, a2) ∧ a2.elems = a1.elems ∧
      a2.exchCalls = a1.exchCalls ∧
      (match (some (Except.ok a1) : Option (Except Err (Sortable ℚ))) with
      | none => ((.error (.panic (alg ++ " Not implemented")) : Except Err Unit), a)
      | some (.error e) => (.error e, a)
      | some (.ok a1) =>
        match IsSorted floatLt a1 with
        | .error e => (.error e, a1)
        | .ok (b, a2) =>
          if !b then (.error (.panic (alg ++ " is not sorted")), a2) else (.ok (), a2))
      = (.ok (), a2) := by
  obtain ⟨b, c, e, hb⟩ := IsSorted_spec floatLt a1
  have hb' : b = true := hb.2 ((sortedAdj_iff floatLt a1.elems).2 h)
  subst hb'
  refine ⟨_, e, rfl, rfl, ?_⟩
  simp only [e]
  rfl

theorem measureTime_named (a : Sortable ℚ) :
    (∃ a1 a2, SelectionSort floatLt a = .ok a1 ∧ IsSorted floatLt a1 = .ok (true, a2) ∧
      measureTime "SelectionSort" a = (.ok (), a2) ∧
      a2.elems = a1.elems ∧ a2.exchCalls = a1.exchCalls) ∧
    (∃ a1 a2, InsertionSort floatLt a = .ok a1 ∧ IsSorted floatLt a1 = .ok (true, a2) ∧
      measureTime "InsertionSort" a = (.ok (), a2) ∧
      a2.elems = a1.elems ∧ a2.exchCalls = a1.exchCalls) ∧
    (∃ a1 a2, BubbleSort floatLt a = .ok a1 ∧ IsSorted floatLt a1 = .ok (true, a2) ∧
      measureTime "BubbleSort" a = (.ok (), a2) ∧
      a2.elems = a1.elems ∧ a2.exchCalls = a1.exchCalls) ∧
    (∃ a1 a2, ShellSort floatLt a = .ok a1 ∧ IsSorted floatLt a1 = .ok (true, a2) ∧
      measureTime "ShellSort" a = (.ok (), a2) ∧
      a2.elems = a1.elems ∧ a2.exchCalls = a1.exchCalls) := by
  obtain ⟨s1, e1, -⟩ := SelectionSort_total floatLt a
  obtain ⟨s2, e2, -⟩ := InsertionSort_total floatLt a
  obtain ⟨s3, e3, -⟩ := BubbleSort_total floatLt a
  obtain ⟨s4, e4, -⟩ := ShellSort_total floatLt a
  obtain ⟨t1, i1, u1, v1, h1⟩ := measureTime_tail "SelectionSort" a s1
    (SelectionSort_sorted (floatLt_swo _) e1)
  obtain ⟨t2, i2, u2, v2, h2⟩ := measureTime_tail "InsertionSort" a s2
    (InsertionSort_sorted (floatLt_swo _) e2)
  obtain ⟨t3, i3, u3, v3, h3⟩ := measureTime_tail "BubbleSort" a s3
    (BubbleSort_sorted (floatLt_swo _) e3)
  obtain ⟨t4, i4, u4, v4, h4⟩ := measureTime_tail "ShellSort" a s4
    (ShellSort_sorted (floatLt_swo _) e4)
  refine ⟨⟨s1, t1, e1, i1, ?_, u1, v1⟩, ⟨s2, t2, e2, i2, ?_, u2, v2⟩,
    ⟨s3, t3, e3, i3, ?_, u3, v3⟩, ⟨s4, t4, e4, i4, ?_, u4, v4⟩⟩
  · unfold measureTime
    simp only [if_pos, e1]
    exact h1
  · unfold measureTime
    rw [if_neg (by decide), if_pos rfl, e2]
    exact h2
  · unfold measureTime
    rw [if_neg (by decide), if_neg (by decide), if_pos rfl, e3]
    exact h3
  · unfold measureTime
    rw [if_neg (by decide), if_neg (by decide), if_neg (by decide), if_pos rfl, e4]
    exact h4

theorem measureTime_other (alg : String) (a : Sortable ℚ)
    (h : ¬ (alg = "SelectionSort" ∨ alg = "InsertionSort" ∨ alg = "BubbleSort" ∨
      alg = "ShellSort")) :
    measureTime alg a = (.error (.panic (alg ++ " Not implemented")), a) := by
  simp only [not_or] at h
  obtain ⟨h1, h2, h3, h4⟩ := h
  unfold measureTime
  rw [if_neg h1, if_neg h2, if_neg h3, if_neg h4]

/-- C14: `measureTime(alg, a)` fails with the error `alg + " Not implemented"`
exactly when `alg` is none of the four names; it then leaves the sequence `a`
and both call counters as they were.  For each of the four names it returns,
and the sequence it leaves, both call counters included, is the one that
`IsSorted` returns on the result of the procedure of that name run on `a`; its
elements and its number of exchanges are those of that result.  On the floats
`[3.1, 1.4, 1.5, 9.2, 6.5]` the counters tell the procedures apart. -/
theorem measureTime_dispatch (alg : String) (a : Sortable ℚ) :
    ((measureTime alg a).1 = .error (.panic (alg ++ " Not implemented")) ↔
      ¬ (alg = "SelectionSort" ∨ alg = "InsertionSort" ∨ alg = "BubbleSort" ∨
        alg = "ShellSort")) ∧
    (¬ (alg = "SelectionSort" ∨ alg = "InsertionSort" ∨ alg = "BubbleSort" ∨
        alg = "ShellSort") → (measureTime alg a).2 = a) ∧
    (∃ a1 a2, SelectionSort floatLt a = .ok a1 ∧ IsSorted floatLt a1 = .ok (true, a2) ∧
      measureTime "SelectionSort" a = (.ok (), a2) ∧
      a2.elems = a1.elems ∧ a2.exchCalls = a1.exchCalls) ∧
    (∃ a1 a2, InsertionSort floatLt a = .ok a1 ∧ IsSorted floatLt a1 = .ok (true, a2) ∧
      measureTime "InsertionSort" a = (.ok (), a2) ∧
      a2.elems = a1.elems ∧ a2.exchCalls = a1.exchCalls) ∧
    (∃ a1 a2, BubbleSort floatLt a = .ok a1 ∧ IsSorted floatLt a1 = .ok (true, a2) ∧
      measureTime "BubbleSort" a = (.ok (), a2) ∧
      a2.elems = a1.elems ∧ a2.exchCalls = a1.exchCalls) ∧
    (∃ a1 a2, ShellSort floatLt a = .ok a1 ∧ IsSorted floatLt a1 = .ok (true, a2) ∧
      measureTime "ShellSort" a = (.ok (), a2) ∧
      a2.elems = a1.elems ∧ a2.exchCalls = a1.exchCalls) ∧
    (measureTime "SelectionSort" (Floats [3.1, 1.4, 1.5, 9.2, 6.5]) =
        (.ok (), ⟨[1.4, 1.5, 3.1, 6.5, 9.2], 14, 4⟩) ∧
      measureTime "InsertionSort" (Floats [3.1, 1.4, 1.5, 9.2, 6.5]) =
        (.ok (), ⟨[1.4, 1.5, 3.1, 6.5, 9.2], 10, 3⟩) ∧
      measureTime "BubbleSort" (Floats [3.1, 1.4, 1.5, 9.2, 6.5]) =
        (.ok (), ⟨[1.4, 1.5, 3.1, 6.5, 9.2], 11, 3⟩) ∧
      measureTime "ShellSort" (Floats [3.1, 1.4, 1.5, 9.2, 6.5]) =
        (.ok (), ⟨[1.4, 1.5, 3.1, 6.5, 9.2], 10, 3⟩) ∧
      measureTime "QuickSort" (Floats [3.1, 1.4, 1.5, 9.2, 6.5]) =
        (.error (.panic "QuickSort Not implemented"), Floats [3.1, 1.4, 1.5, 9.2, 6.5])) := by
  obtain ⟨⟨s1, t1, e1, i1, h1, r1⟩, ⟨s2, t2, e2, i2, h2, r2⟩, ⟨s3, t3, e3, i3, h3, r3⟩,
    ⟨s4, t4, e4, i4, h4, r4⟩⟩ := measureTime_named a
  refine ⟨⟨fun he hn => ?_, fun hn => by rw [measureTime_other alg a hn]⟩,
    fun hn => by rw [measureTime_other alg a hn], ⟨s1, t1, e1, i1, h1, r1⟩,
    ⟨s2, t2, e2, i2, h2, r2⟩, ⟨s3, t3, e3, i3, h3, r3⟩, ⟨s4, t4, e4, i4, h4, r4⟩,
    by with_unfolding_all rfl, by with_unfolding_all rfl, by with_unfolding_all rfl,
    by with_unfolding_all rfl, by with_unfolding_all rfl⟩
  rcases hn with rfl | rfl | rfl | rfl
  · rw [h1] at he; cases he
  · rw [h2] at he; cases he
  · rw [h3] at he; cases he
  · rw [h4] at he; cases he

/-! ## Exch on the two concrete sequence types -/

theorem swapIdx_swapIdx (i j k : Nat) : swapIdx i j (swapIdx i j k) = k := by
  unfold swapIdx
  split_ifs <;> omega

theorem swap_swap (l : List α) {i j : Nat} (hi : i < l.length) (hj : j < l.length) :
    swap (swap l i j) i j = l := by
  apply List.ext_getElem?
  intro k
  rw [getElem?_swap _ (by rw [length_swap]; exact hi) (by rw [length_swap]; exact hj),
    getElem?_swap l hi hj, swapIdx_swapIdx]

theorem Exch_spec (s : Sortable α) (i j : Nat) (hi : i < Len s) (hj : j < Len s) :
    ∃ s1 s2, Exch s i j = .ok s1 ∧ s1.elems[i]? = s.elems[j]? ∧ s1.elems[j]? = s.elems[i]? ∧
      (∀ k, k ≠ i → k ≠ j → s1.elems[k]? = s.elems[k]?) ∧ Len s1 = Len s ∧
      Exch s1 i j = .ok s2 ∧ s2.elems = s.elems := by
  have hl : Len (⟨swap s.elems i j, s.lessCalls, s.exchCalls + 1⟩ : Sortable α) = Len s :=
    length_swap _ _ _
  refine ⟨_, _, Exch_eq s hi hj, ?_, ?_, ?_, hl,
    Exch_eq _ (by rw [hl]; exact hi) (by rw [hl]; exact hj), swap_swap s.elems hi hj⟩
  · show (swap s.elems i j)[i]? = _
    rw [getElem?_swap _ hi hj, swapIdx_left]
  · show (swap s.elems i j)[j]? = _
    rw [getElem?_swap _ hi hj, swapIdx_right]
  · intro k hk1 hk2
    show (swap s.elems i j)[k]? = _
    rw [getElem?_swap _ hi hj, swapIdx_of_ne hk1 hk2]

theorem Exch_swaps (w : Sortable String) (f : Sortable ℚ) (i j i' j' : Nat)
    (hi : i < Len w) (hj : j < Len w) (hi' : i' < Len f) (hj' : j' < Len f) :
    (∃ w1 w2, Exch w i j = .ok w1 ∧ w1.elems[i]? = w.elems[j]? ∧
      w1.elems[j]? = w.elems[i]? ∧
      (∀ k, k ≠ i → k ≠ j → w1.elems[k]? = w.elems[k]?) ∧ Len w1 = Len w ∧
      Exch w1 i j = .ok w2 ∧ w2.elems = w.elems) ∧
    (∃ f1 f2, Exch f i' j' = .ok f1 ∧ f1.elems[i']? = f.elems[j']? ∧
      f1.elems[j']? = f.elems[i']? ∧
      (∀ k, k ≠ i' → k ≠ j' → f1.elems[k]? = f.elems[k]?) ∧ Len f1 = Len f ∧
      Exch f1 i' j' = .ok f2 ∧ f2.elems = f.elems) :=
  ⟨Exch_spec w i j hi hj, Exch_spec f i' j' hi' hj'⟩

theorem Exch_swaps_witness :
    (0 < Len (Words ["b", "a", "c"]) ∧ 2 < Len (Words ["b", "a", "c"]) ∧
      1 < Len (Floats [3.1, 1.4, 1.5]) ∧ 1 < Len (Floats [3.1, 1.4, 1.5])) ∧
    (∃ w1 w2, Exch (Words ["b", "a", "c"]) 0 2 = .ok w1 ∧
      w1.elems[0]? = (Words ["b", "a", "c"]).elems[2]? ∧
      w1.elems[2]? = (Words ["b", "a", "c"]).elems[0]? ∧
      (∀ k, k ≠ 0 → k ≠ 2 → w1.elems[k]? = (Words ["b", "a", "c"]).elems[k]?) ∧
      Len w1 = Len (Words ["b", "a", "c"]) ∧
      Exch w1 0 2 = .ok w2 ∧ w2.elems = (Words ["b", "a", "c"]).elems) ∧
    (∃ f1 f2, Exch (Floats [3.1, 1.4, 1.5]) 1 1 = .ok f1 ∧
      f1.elems[1]? = (Floats [3.1, 1.4, 1.5]).elems[1]? ∧
      f1.elems[1]? = (Floats [3.1, 1.4, 1.5]).elems[1]? ∧
      (∀ k, k ≠ 1 → k ≠ 1 → f1.elems[k]? = (Floats [3.1, 1.4, 1.5]).elems[k]?) ∧
      Len f1 = Len (Floats [3.1, 1.4, 1.5]) ∧
      Exch f1 1 1 = .ok f2 ∧ f2.elems = (Floats [3.1, 1.4, 1.5]).elems) :=
  ⟨⟨by decide, by decide, by decide, by decide⟩,
    Exch_swaps (Words ["b", "a", "c"]) (Floats [3.1, 1.4, 1.5]) 0 2 1 1
      (by decide) (by decide) (by decide) (by decide)⟩

/-! ## Comparisons on a sorted input -/

theorem insertionInner_sorted_count (lt : α → α → Bool) (j : Nat) (s : Sortable α)
    (hj : j < Len s) (h1 : 1 ≤ j) (h : lessAt lt s.elems j (j - 1) = false) :
    insertionInner lt j s = .ok ⟨s.elems, s.lessCalls + 1, s.exchCalls⟩ := by
  obtain ⟨k, rfl⟩ : ∃ k, j = k + 1 := ⟨j - 1, by omega⟩
  rw [Nat.add_sub_cancel] at h
  rw [insertionInner, Less_eq lt s hj (by omega), bind_ok, h]
  rfl

theorem insertionOuter_sorted_count (lt : α → α → Bool) (n : Nat) :
    ∀ (fuel i : Nat) (s : Sortable α), Len s = n → 1 ≤ i → n - i < fuel →
    (∀ k, 1 ≤ k → k < n → lessAt lt s.elems k (k - 1) = false) →
    insertionOuter lt n fuel i s = .ok ⟨s.elems, s.lessCalls + (n - i), s.exchCalls⟩
  | 0, i, s, _, _, hf, _ => by omega
  | fuel + 1, i, s, hn, hi, hf, hs => by
    rw [insertionOuter]
    by_cases hin : i < n
    · rw [if_pos hin, insertionInner_sorted_count lt i s (by omega) hi (hs i hi hin), bind_ok,
        insertionOuter_sorted_count lt n fuel (i + 1) ⟨s.elems, s.lessCalls + 1, s.exchCalls⟩
          hn (by omega) (by omega) hs]
      show Except.ok (Sortable.mk s.elems (s.lessCalls + 1 + (n - (i + 1))) s.exchCalls) = _
      rw [show s.lessCalls + 1 + (n - (i + 1)) = s.lessCalls + (n - i) by omega]
    · rw [if_neg hin, show n - i = 0 by omega]
      rfl

theorem bubbleInner_sorted_count (lt : α → α → Bool) (i : Nat) :
    ∀ (fuel j : Nat) (exch : Bool) (s : Sortable α), i ≤ Len s → i - 1 - j < fuel →
    (∀ k, j ≤ k → k < i - 1 → lessAt lt s.elems (k + 1) k = false) →
    bubbleInner lt i fuel j exch s =
      .ok (exch, ⟨s.elems, s.lessCalls + (i - 1 - j), s.exchCalls⟩)
  | 0, j, exch, s, _, hf, _ => by omega
  | fuel + 1, j, exch, s, hi, hf, hs => by
    rw [bubbleInner]
    by_cases hji : j < i - 1
    · rw [if_pos hji, Less_eq lt s (by omega) (by omega), bind_ok, hs j (le_refl _) hji]
      simp only [Bool.false_eq_true, if_false]
      rw [bubbleInner_sorted_count lt i fuel (j + 1) exch
        ⟨s.elems, s.lessCalls + 1, s.exchCalls⟩ hi (by omega)
        (fun k hk1 hk2 => hs k (by omega) hk2)]
      show Except.ok (exch, Sortable.mk s.elems (s.lessCalls + 1 + (i - 1 - (j + 1)))
        s.exchCalls) = _
      rw [show s.lessCalls + 1 + (i - 1 - (j + 1)) = s.lessCalls + (i - 1 - j) by omega]
    · rw [if_neg hji, show i - 1 - j = 0 by omega]
      rfl

theorem InsertionSort_sorted_count (lt : α → α → Bool) (s : Sortable α)
    (hs : SortedAdj lt s.elems) :
    InsertionSort lt s = .ok ⟨s.elems, s.lessCalls + (Len s - 1), s.exchCalls⟩ :=
  insertionOuter_sorted_count lt (Len s) (Len s + 1) 1 s rfl (le_refl _) (by omega)
    ((sortedAdj_iff lt s.elems).1 hs)

theorem BubbleSort_sorted_count (lt : α → α → Bool) (s : Sortable α)
    (hs : SortedAdj lt s.elems) :
    BubbleSort lt s = .ok ⟨s.elems, s.lessCalls + (Len s - 1), s.exchCalls⟩ := by
  have hs' := (sortedAdj_iff lt s.elems).1 hs
  unfold BubbleSort
  cases hn : Len s with
  | zero => rw [bubbleOuter]; rfl
  | succ n =>
    rw [bubbleOuter]
    by_cases h1 : n + 1 > 1
    · rw [if_pos h1, bubbleInner_sorted_count lt (n + 1) (n + 1) 0 false s (by omega) (by omega)
        (fun k _ hk2 => hs' (k + 1) (by omega) (by unfold Len at hn; omega)), bind_ok]
      rfl
    · rw [if_neg h1]
      have : n = 0 := by omega
      subst this
      rfl

theorem sorted_input_comparisons (lt : α → α → Bool) (s : Sortable α)
    (hN : 1 ≤ Len s) (hsorted : Except.map Prod.fst (IsSorted lt s) = .ok true) :
    (∃ s', InsertionSort lt s = .ok s' ∧ s'.lessCalls + 1 = s.lessCalls + Len s) ∧
    (∃ s', BubbleSort lt s = .ok s' ∧ s'.lessCalls + 1 = s.lessCalls + Len s ∧
      s'.exchCalls = s.exchCalls) := by
  have hadj := (IsSorted_true_iff lt s).1 hsorted
  refine ⟨⟨_, InsertionSort_sorted_count lt s hadj, ?_⟩,
    ⟨_, BubbleSort_sorted_count lt s hadj, ?_, rfl⟩⟩
  · show s.lessCalls + (Len s - 1) + 1 = s.lessCalls + Len s
    omega
  · show s.lessCalls + (Len s - 1) + 1 = s.lessCalls + Len s
    omega

theorem sorted_input_comparisons_witness :
    1 ≤ Len (Floats [1.4, 1.5, 1.5, 3.1]) ∧
    Except.map Prod.fst (IsSorted floatLt (Floats [1.4, 1.5, 1.5, 3.1])) = .ok true ∧
    (∃ s', InsertionSort floatLt (Floats [1.4, 1.5, 1.5, 3.1]) = .ok s' ∧
      s'.lessCalls + 1 = (Floats [1.4, 1.5, 1.5, 3.1]).lessCalls +
        Len (Floats [1.4, 1.5, 1.5, 3.1])) ∧
    (∃ s', BubbleSort floatLt (Floats [1.4, 1.5, 1.5, 3.1]) = .ok s' ∧
      s'.lessCalls + 1 = (Floats [1.4, 1.5, 1.5, 3.1]).lessCalls +
        Len (Floats [1.4, 1.5, 1.5, 3.1]) ∧
      s'.exchCalls = (Floats [1.4, 1.5, 1.5, 3.1]).exchCalls) :=
  ⟨by decide, by with_unfolding_all rfl,
    sorted_input_comparisons floatLt (Floats [1.4, 1.5, 1.5, 3.1]) (by decide)
      (by with_unfolding_all rfl)⟩

/-! ## Termination -/

theorem shellGrow_total (N : Nat) :
    ∀ (fuel h : Nat), N / 3 - h < fuel → ∃ h', shellGrow N fuel h = .ok h'
  | 0, h, hf => by omega
  | fuel + 1, h, hf => by
    rw [shellGrow]
    by_cases hh : h < N / 3
    · rw [if_pos hh]
      exact shellGrow_total N fuel (3 * h + 1) (by omega)
    · rw [if_neg hh]
      exact ⟨h, rfl⟩

theorem sorts_terminate (lt : α → α → Bool) (s : Sortable α) :
    ((∃ s', SelectionSort lt s = .ok s') ∧ (∃ s', InsertionSort lt s = .ok s') ∧
      (∃ s', BubbleSort lt s = .ok s') ∧ (∃ s', ShellSort lt s = .ok s')) ∧
    (∀ fuel i, Len s - i < fuel → ∃ s', selectionOuter lt (Len s) fuel i s = .ok s') ∧
    (∀ fuel j min, min < Len s → Len s - j < fuel →
      ∃ r, selectionInner lt (Len s) fuel j min s = .ok r) ∧
    (∀ fuel i, Len s - i < fuel → ∃ s', insertionOuter lt (Len s) fuel i s = .ok s') ∧
    (∀ j, j < Len s → ∃ s', insertionInner lt j s = .ok s') ∧
    (∀ i, i ≤ Len s → ∃ s', bubbleOuter lt i s = .ok s') ∧
    (∀ i fuel j exch, i ≤ Len s → i - 1 - j < fuel →
      ∃ r, bubbleInner lt i fuel j exch s = .ok r) ∧
    (∀ N fuel h, N / 3 - h < fuel → ∃ h', shellGrow N fuel h = .ok h') ∧
    (∀ fuel h, h < fuel → ∃ s', shellGaps lt (Len s) fuel h s = .ok s') ∧
    (∀ h fuel i, 1 ≤ h → Len s - i < fuel →
      ∃ s', shellPass lt (Len s) h fuel i s = .ok s') ∧
    (∀ h fuel j, 1 ≤ h → j < Len s → j < fuel → ∃ s', shellInner lt h fuel j s = .ok s') := by
  obtain ⟨s1, e1, -⟩ := SelectionSort_total lt s
  obtain ⟨s2, e2, -⟩ := InsertionSort_total lt s
  obtain ⟨s3, e3, -⟩ := BubbleSort_total lt s
  obtain ⟨s4, e4, -⟩ := ShellSort_total lt s
  refine ⟨⟨⟨s1, e1⟩, ⟨s2, e2⟩, ⟨s3, e3⟩, ⟨s4, e4⟩⟩, ?_, ?_, ?_, ?_, ?_, ?_, ?_, ?_, ?_, ?_⟩
  · intro fuel i hf
    obtain ⟨s', e, -⟩ := selectionOuter_total lt (Len s) fuel i s rfl hf
    exact ⟨s', e⟩
  · intro fuel j min hm hf
    obtain ⟨m, c, e, -⟩ := selectionInner_total lt (Len s) fuel j min s rfl hm hf
    exact ⟨_, e⟩
  · intro fuel i hf
    obtain ⟨s', e, -⟩ := insertionOuter_total lt (Len s) fuel i s rfl hf
    exact ⟨s', e⟩
  · intro j hj
    obtain ⟨s', e, -⟩ := insertionInner_total lt j s hj
    exact ⟨s', e⟩
  · intro i hi
    obtain ⟨s', e, -⟩ := bubbleOuter_total lt i s hi
    exact ⟨s', e⟩
  · intro i fuel j exch hi hf
    obtain ⟨b, s', e, -⟩ := bubbleInner_total lt i fuel j exch s hi hf
    exact ⟨_, e⟩
  · exact fun N fuel h hf => shellGrow_total N fuel h hf
  · intro fuel h hf
    obtain ⟨s', e, -⟩ := shellGaps_total lt (Len s) fuel h s rfl hf
    exact ⟨s', e⟩
  · intro h fuel i hh hf
    obtain ⟨s', e, -⟩ := shellPass_total lt (Len s) h hh fuel i s rfl hf
    exact ⟨s', e⟩
  · intro h fuel j hh hj hf
    obtain ⟨s', e, -⟩ := shellInner_total lt h hh fuel j s hj hf
    exact ⟨s', e⟩

/-! ## Inversions and the exchanges of InsertionSort -/

theorem lessAt_cons_succ (lt : α → α → Bool) (x : α) (t : List α) (i j : Nat) :
    lessAt lt (x :: t) (i + 1) (j + 1) = lessAt lt t i j := by
  simp [lessAt]

theorem sum_range_indicator (q : α → Bool) : ∀ (t : List α),
    ((List.range t.length).map (fun j =>
      if (match t[j]? with | some y => q y | none => false) = true then 1 else 0)).sum =
      (t.filter q).length
  | [] => rfl
  | y :: t => by
    rw [List.length_cons, List.range_succ_eq_map, List.map_cons, List.sum_cons, List.map_map]
    have ih := sum_range_indicator q t
    have e : ((fun j => if (match (y :: t)[j]? with | some y => q y | none => false) = true
        then 1 else 0) ∘ Nat.succ) =
        (fun j => if (match t[j]? with | some y => q y | none => false) = true
          then 1 else 0) := by
      funext j
      simp
    rw [e, ih]
    cases hq : q y <;> simp [List.filter_cons, hq]
    omega

theorem inversions_cons (lt : α → α → Bool) (x : α) (t : List α) :
    inversions lt (x :: t) = (t.filter (fun y => lt y x)).length + inversions lt t := by
  unfold inversions
  rw [List.length_cons, List.range_succ_eq_map, List.map_cons, List.sum_cons, List.map_map]
  have e : ((fun j => ((List.range j).filter (fun i => lessAt lt (x :: t) j i)).length)
      ∘ Nat.succ) =
      (fun j => (if (match t[j]? with | some y => lt y x | none => false) = true
          then 1 else 0) +
        ((List.range j).filter (fun i => lessAt lt t j i)).length) := by
    funext j
    show ((List.range (j + 1)).filter (fun i => lessAt lt (x :: t) (j + 1) i)).length = _
    rw [List.range_succ_eq_map, List.filter_cons, List.filter_map]
    have e2 : ((fun i => lessAt lt (x :: t) (j + 1) i) ∘ Nat.succ) =
        (fun i => lessAt lt t j i) := by
      funext i
      exact lessAt_cons_succ lt x t j i
    rw [e2]
    have e3 : lessAt lt (x :: t) (j + 1) 0 =
        (match t[j]? with | some y => lt y x | none => false) := by
      unfold lessAt
      simp only [List.getElem?_cons_succ, List.getElem?_cons_zero]
      cases t[j]? <;> rfl
    rw [e3]
    split_ifs
    · rw [List.length_cons, List.length_map]; omega
    · rw [List.length_map]; omega
  rw [e]
  have hsum : ∀ (f g : Nat → Nat) (l : List Nat),
      (l.map (fun j => f j + g j)).sum = (l.map f).sum + (l.map g).sum := by
    intro f g l
    induction l with
    | nil => rfl
    | cons a l ih => simp only [List.map_cons, List.sum_cons, ih]; omega
  rw [hsum, sum_range_indicator (fun y => lt y x) t]
  simp

theorem swap_cons_succ (x : α) (t : List α) (i j : Nat) :
    swap (x :: t) (i + 1) (j + 1) = x :: swap t i j := by
  unfold swap
  simp only [List.getElem?_cons_succ]
  split <;> simp_all

theorem swap_one_zero (x y : α) (t : List α) : swap (x :: y :: t) 1 0 = y :: x :: t := by
  simp [swap]

theorem inversions_swap_adj (lt : α → α → Bool) : ∀ (l : List α) (j : Nat) (x y : α),
    l[j]? = some x → l[j + 1]? = some y → lt y x = true → lt x y = false →
    inversions lt (swap l (j + 1) j) + 1 = inversions lt l
  | [], j, x, y, hx, _, _, _ => by simp at hx
  | [a], j, x, y, _, hy, _, _ => by simp at hy
  | a :: b :: t, 0, x, y, hx, hy, hyx, hxy => by
    simp at hx hy
    subst hx hy
    rw [swap_one_zero, inversions_cons, inversions_cons, inversions_cons, inversions_cons,
      List.filter_cons, List.filter_cons, hyx, hxy]
    simp
    omega
  | a :: t, j + 1, x, y, hx, hy, hyx, hxy => by
    simp only [List.getElem?_cons_succ] at hx hy
    rw [swap_cons_succ, inversions_cons, inversions_cons]
    have ih := inversions_swap_adj lt t j x y hx hy hyx hxy
    have hp : ((swap t (j + 1) j).filter (fun z => lt z a)).length =
        (t.filter (fun z => lt z a)).length :=
      ((swap_perm t (j + 1) j).filter _).length_eq
    rw [hp]
    omega

theorem inversions_eq_zero (lt : α → α → Bool) (l : List α)
    (h : ∀ p q, p < q → q < l.length → lessAt lt l q p = false) : inversions lt l = 0 := by
  unfold inversions
  have : ∀ (m : List Nat), (∀ j, j ∈ m → j < l.length) →
      (m.map (fun j => ((List.range j).filter (fun i => lessAt lt l j i)).length)).sum = 0 := by
    intro m
    induction m with
    | nil => intro _; rfl
    | cons a m ih =>
      intro hm
      rw [List.map_cons, List.sum_cons, ih (fun j hj => hm j (List.mem_cons_of_mem _ hj))]
      have ha := hm a (List.mem_cons_self _ _)
      have : (List.range a).filter (fun i => lessAt lt l a i) = [] := by
        rw [List.filter_eq_nil_iff]
        intro i hi
        rw [List.mem_range] at hi
        rw [h i a hi ha]
        simp
      rw [this]
      rfl
  exact this _ (fun j hj => List.mem_range.1 hj)

theorem lessAt_true_elems (lt : α → α → Bool) (l : List α) (i j : Nat)
    (h : lessAt lt l i j = true) : ∃ x y, l[i]? = some x ∧ l[j]? = some y ∧ lt x y = true := by
  unfold lessAt at h
  cases hx : l[i]? with
  | none => rw [hx] at h; simp at h
  | some x =>
    cases hy : l[j]? with
    | none => rw [hx, hy] at h; simp at h
    | some y =>
      rw [hx, hy] at h
      exact ⟨x, y, rfl, rfl, h⟩

theorem insertionInner_inversions {lt : α → α → Bool} :
    ∀ (j : Nat) (s s' : Sortable α), StrictWeakOrderOn lt s.elems → j < Len s →
    insertionInner lt j s = .ok s' →
    s'.exchCalls + inversions lt s'.elems = s.exchCalls + inversions lt s.elems
  | 0, s, s', _, _, he => by
    rw [insertionInner] at he
    have hs : s = s' := Except.ok.inj he
    subst hs; rfl
  | j + 1, s, s', hlt, hj, he => by
    rw [insertionInner, Less_eq lt s hj (by omega), bind_ok] at he
    cases hb : lessAt lt s.elems (j + 1) j
    · rw [hb] at he
      have hs := Except.ok.inj he
      subst hs; rfl
    · rw [hb] at he
      simp only [if_true] at he
      rw [Exch_eq _ (by show j + 1 < Len s; exact hj) (by show j < Len s; omega), bind_ok] at he
      have ih := insertionInner_inversions j
        ⟨swap s.elems (j + 1) j, s.lessCalls + 1, s.exchCalls + 1⟩ s'
        (hlt.perm (swap_perm _ _ _))
        (by show j < (swap s.elems (j + 1) j).length; rw [length_swap]; unfold Len at hj; omega)
        he
      obtain ⟨y, x, hy, hx, hyx⟩ := lessAt_true_elems lt _ _ _ hb
      have hxy := hlt.asymm y x (List.getElem?_mem hy) (List.getElem?_mem hx) hyx
      have hsw := inversions_swap_adj lt s.elems j x y hx hy hyx hxy
      rw [ih]
      show s.exchCalls + 1 + inversions lt (swap s.elems (j + 1) j) = _
      omega

theorem insertionOuter_inversions {lt : α → α → Bool} (n : Nat) :
    ∀ (fuel i : Nat) (s s' : Sortable α), StrictWeakOrderOn lt s.elems → Len s = n →
    insertionOuter lt n fuel i s = .ok s' →
    s'.exchCalls + inversions lt s'.elems = s.exchCalls + inversions lt s.elems
  | 0, i, s, s', _, _, he => by
    rw [insertionOuter] at he; cases he
  | fuel + 1, i, s, s', hlt, hn, he => by
    rw [insertionOuter] at he
    by_cases hin : i < n
    · rw [if_pos hin] at he
      obtain ⟨s1, e1, p1, -⟩ := insertionInner_total lt i s (by omega)
      rw [e1, bind_ok] at he
      rw [insertionOuter_inversions n fuel (i + 1) s1 s' (hlt.perm p1)
        ((perm_Len p1).trans hn) he]
      exact insertionInner_inversions i s s1 hlt (by omega) e1
    · rw [if_neg hin] at he
      have hs := Except.ok.inj he
      subst hs; rfl

theorem InsertionSort_exchanges (lt : α → α → Bool) (s : Sortable α)
    (hlt : StrictWeakOrderOn lt s.elems) :
    ∃ s', InsertionSort lt s = .ok s' ∧
      s'.exchCalls = s.exchCalls + inversions lt s.elems := by
  obtain ⟨s', e, p, -⟩ := InsertionSort_total lt s
  refine ⟨s', e, ?_⟩
  have h1 := insertionOuter_inversions (Len s) (Len s + 1) 1 s s' hlt rfl e
  have h2 : inversions lt s'.elems = 0 :=
    inversions_eq_zero lt s'.elems
      (lessAt_of_sorted s'.elems (hlt.perm p) (InsertionSort_sorted hlt e))
  omega

theorem InsertionSort_exchanges_witness :
    StrictWeakOrderOn floatLt (Floats [3.1, 1.4, 1.5, 9.2, 6.5]).elems ∧
    inversions floatLt (Floats [3.1, 1.4, 1.5, 9.2, 6.5]).elems = 3 ∧
    ∃ s', InsertionSort floatLt (Floats [3.1, 1.4, 1.5, 9.2, 6.5]) = .ok s' ∧
      s'.exchCalls = (Floats [3.1, 1.4, 1.5, 9.2, 6.5]).exchCalls +
        inversions floatLt (Floats [3.1, 1.4, 1.5, 9.2, 6.5]).elems :=
  ⟨floatLt_swo _, by with_unfolding_all rfl,
    InsertionSort_exchanges floatLt _ (floatLt_swo _)⟩

/-! ## Stability of InsertionSort -/

theorem filter_swap_adj (p : α → Bool) : ∀ (l : List α) (j : Nat) (x y : α),
    l[j]? = some x → l[j + 1]? = some y → ¬ (p x = true ∧ p y = true) →
    (swap l (j + 1) j).filter p = l.filter p
  | [], j, x, y, hx, _, _ => by simp at hx
  | [a], j, x, y, _, hy, _ => by simp at hy
  | a :: b :: t, 0, x, y, hx, hy, hp => by
    simp at hx hy
    subst hx hy
    rw [swap_one_zero]
    cases ha : p a <;> cases hb : p b <;> simp_all [List.filter_cons]
  | a :: t, j + 1, x, y, hx, hy, hp => by
    simp only [List.getElem?_cons_succ] at hx hy
    rw [swap_cons_succ, List.filter_cons, List.filter_cons,
      filter_swap_adj p t j x y hx hy hp]

theorem incomp_not_both {lt : α → α → Bool} {l : List α} (hlt : StrictWeakOrderOn lt l)
    (a x y : α) (ha : a ∈ l) (hx : x ∈ l) (hy : y ∈ l) (hyx : lt y x = true) :
    ¬ (incomp lt a x = true ∧ incomp lt a y = true) := by
  rintro ⟨h1, h2⟩
  unfold incomp at h1 h2
  simp only [Bool.and_eq_true, Bool.not_eq_true'] at h1 h2
  have := (hlt.incomp_trans y a x hy ha hx h2.2 h2.1 h1.1 h1.2).1
  rw [hyx] at this
  cases this

theorem insertionInner_stable {lt : α → α → Bool} (a : α) :
    ∀ (j : Nat) (s s' : Sortable α), StrictWeakOrderOn lt s.elems → a ∈ s.elems →
    j < Len s → insertionInner lt j s = .ok s' →
    s'.elems.filter (incomp lt a) = s.elems.filter (incomp lt a)
  | 0, s, s', _, _, _, he => by
    rw [insertionInner] at he
    have hs : s = s' := Except.ok.inj he
    subst hs; rfl
  | j + 1, s, s', hlt, ha, hj, he => by
    rw [insertionInner, Less_eq lt s hj (by omega), bind_ok] at he
    cases hb : lessAt lt s.elems (j + 1) j
    · rw [hb] at he
      have hs := Except.ok.inj he
      subst hs; rfl
    · rw [hb] at he
      simp only [if_true] at he
      rw [Exch_eq _ (by show j + 1 < Len s; exact hj) (by show j < Len s; omega), bind_ok] at he
      have ih := insertionInner_stable a j
        ⟨swap s.elems (j + 1) j, s.lessCalls + 1, s.exchCalls + 1⟩ s'
        (hlt.perm (swap_perm _ _ _)) ((swap_perm _ _ _).mem_iff.2 ha)
        (by show j < (swap s.elems (j + 1) j).length; rw [length_swap]; unfold Len at hj; omega)
        he
      obtain ⟨y, x, hy, hx, hyx⟩ := lessAt_true_elems lt _ _ _ hb
      rw [ih]
      exact filter_swap_adj (incomp lt a) s.elems j x y hx hy
        (incomp_not_both hlt a x y ha (List.getElem?_mem hx) (List.getElem?_mem hy) hyx)

theorem insertionOuter_stable {lt : α → α → Bool} (a : α) (n : Nat) :
    ∀ (fuel i : Nat) (s s' : Sortable α), StrictWeakOrderOn lt s.elems → a ∈ s.elems →
    Len s = n → insertionOuter lt n fuel i s = .ok s' →
    s'.elems.filter (incomp lt a) = s.elems.filter (incomp lt a)
  | 0, i, s, s', _, _, _, he => by
    rw [insertionOuter] at he; cases he
  | fuel + 1, i, s, s', hlt, ha, hn, he => by
    rw [insertionOuter] at he
    by_cases hin : i < n
    · rw [if_pos hin] at he
      obtain ⟨s1, e1, p1, -⟩ := insertionInner_total lt i s (by omega)
      rw [e1, bind_ok] at he
      rw [insertionOuter_stable a n fuel (i + 1) s1 s' (hlt.perm p1) (p1.mem_iff.2 ha)
        ((perm_Len p1).trans hn) he]
      exact insertionInner_stable a i s s1 hlt ha (by omega) e1
    · rw [if_neg hin] at he
      have hs := Except.ok.inj he
      subst hs; rfl

theorem keyLt_swo (l : List (ℚ × String)) : StrictWeakOrderOn keyLt l := by
  refine ⟨fun x _ => ?_, fun x y z _ _ _ h1 h2 => ?_, fun x y z _ _ _ h1 h2 h3 h4 => ?_⟩
  · simp [keyLt]
  · simp only [keyLt, decide_eq_true_eq] at *; exact lt_trans h1 h2
  · simp only [keyLt, decide_eq_false_iff_not, not_lt] at *
    exact ⟨le_trans h3 h1, le_trans h2 h4⟩

theorem InsertionSort_stable (lt : α → α → Bool) (s : Sortable α)
    (hlt : StrictWeakOrderOn lt s.elems) :
    ∃ s', InsertionSort lt s = .ok s' ∧
      ∀ a, a ∈ s.elems → s'.elems.filter (incomp lt a) = s.elems.filter (incomp lt a) := by
  obtain ⟨s', e, -⟩ := InsertionSort_total lt s
  exact ⟨s', e, fun a ha => insertionOuter_stable a (Len s) (Len s + 1) 1 s s' hlt ha rfl e⟩

theorem InsertionSort_stable_witness :
    StrictWeakOrderOn keyLt
      (Sortable.mk [((2 : ℚ), "a"), (1, "b"), (2, "c"), (1, "d")] 0 0).elems ∧
    Except.map Sortable.elems
      (InsertionSort keyLt ⟨[((2 : ℚ), "a"), (1, "b"), (2, "c"), (1, "d")], 0, 0⟩) =
      .ok [(1, "b"), (1, "d"), (2, "a"), (2, "c")] ∧
    ∃ s', InsertionSort keyLt ⟨[((2 : ℚ), "a"), (1, "b"), (2, "c"), (1, "d")], 0, 0⟩ = .ok s' ∧
      ∀ a, a ∈ (Sortable.mk [((2 : ℚ), "a"), (1, "b"), (2, "c"), (1, "d")] 0 0).elems →
        s'.elems.filter (incomp keyLt a) =
          (Sortable.mk [((2 : ℚ), "a"), (1, "b"), (2, "c"), (1, "d")] 0 0).elems.filter
            (incomp keyLt a) :=
  ⟨keyLt_swo _, by with_unfolding_all rfl, InsertionSort_stable keyLt _ (keyLt_swo _)⟩

/-! ## IsSorted and inversions -/

theorem IsSorted_iff_no_inversion (lt : α → α → Bool) (s : Sortable α)
    (hlt : StrictWeakOrderOn lt s.elems) :
    Except.map Prod.fst (IsSorted lt s) = .ok true ↔
      ∀ i j, i < j → j < Len s → Except.map Prod.fst (Less lt s j i) = .ok false := by
  rw [IsSorted_true_iff, sortedAdj_iff]
  constructor
  · intro h i j hij hj
    rw [Less_fst lt s hj (by omega), lessAt_of_sorted s.elems hlt h i j hij hj]
  · intro h k hk1 hk2
    have := h (k - 1) k (by omega) hk2
    rw [Less_fst lt s hk2 (by show k - 1 < Len s; unfold Len; omega)] at this
    exact Except.ok.inj this

theorem IsSorted_iff_no_inversion_witness :
    StrictWeakOrderOn floatLt (Floats [3.1, 1.4, 1.5, 9.2, 6.5]).elems ∧
    (Except.map Prod.fst (IsSorted floatLt (Floats [3.1, 1.4, 1.5, 9.2, 6.5])) = .ok true ↔
      ∀ i j, i < j → j < Len (Floats [3.1, 1.4, 1.5, 9.2, 6.5]) →
        Except.map Prod.fst (Less floatLt (Floats [3.1, 1.4, 1.5, 9.2, 6.5]) j i)
          = .ok false) :=
  ⟨floatLt_swo _, IsSorted_iff_no_inversion floatLt _ (floatLt_swo _)⟩

end Sorting
